import Mathlib

/-!
Verification of the ZebraKet model-compiler notebooks
(`notebooks/SetCoverBQM.ipynb` and
`notebooks/.ipynb_checkpoints/CombinedQUBO-checkpoint.ipynb`).

The notebooks build quadratic coefficient models (dimod `BinaryQuadraticModel`
and `DiscreteQuadraticModel`) with nested Python loops over string-labelled
variables.  We embed:

* the string labels `x_i`, `y_(a, m)`, `z k,s`, `w k` as the inductive type
  `ZVar` (the string construction is injective on these four shapes, so a
  typed key is a faithful rendering of the string keys);
* Python `range(a, b)` as `pyRange a b`;
* the dimod coefficient containers as association lists together with the
  write operations the notebooks use: `bqm.add_variable(v, bias)` accumulates
  an existing linear bias (`assocAdd`) while `bqm.quadratic[key] = v`,
  `dqm.set_linear` and `dqm.set_quadratic` replace the stored value
  (`assocSet`); dimod raises `ValueError` on a self-loop interaction, which
  `setQuadChecked` renders by returning `none`;
* the builders as the ordered lists of writes they perform, and the finished
  models as the fold of the corresponding write operation over those lists.

Exact arithmetic: the set-cover BQM uses integer coefficients (`ℤ`); the
combined DQM multiplies by `lagrange = max(values) * 0.5`, so its biases live
in `ℚ`.
-/

/-- Python `range(a, b)`: the integers `a, a+1, …, b-1` (empty when `b ≤ a`). -/
def pyRange (a b : ℕ) : List ℕ := (List.range (b - a)).map (a + ·)

/-- Value of a binary (0/1) dimod variable, as an integer. -/
def bval (b : Bool) : ℤ := if b then 1 else 0

/-- Typed rendering of the string variable labels used by the notebooks:
`'x_' + str(i)`, `'y_(' + str(a) + ', ' + str(m) + ')'`,
`'z' + str(k) + ',' + str(s)` and `'w' + str(k)`. -/
inductive ZVar : Type
  | x (i : ℕ)
  | y (a m : ℕ)
  | z (k s : ℕ)
  | w (k : ℕ)
deriving DecidableEq, Repr

/-- Helper for `slackM`: floor of the base-2 logarithm, computed with a
structural fuel argument so the kernel can evaluate it.  `log2floorAux n n`
is characterized below by `2 ^ M ≤ n < 2 ^ (M + 1)` for `1 ≤ n`, which is
exactly `floor(log2 n)`. -/
def log2floorAux : ℕ → ℕ → ℕ
  | 0, _ => 0
  | fuel + 1, n => if n ≤ 1 then 0 else log2floorAux fuel (n / 2) + 1

/-- `M = floor(log2(weight_capacity))` from the combined notebook
(`from math import log2, floor`). -/
def slackM (weight_capacity : ℕ) : ℕ :=
  log2floorAux weight_capacity weight_capacity

/-- The slack weights of the combined notebook (Lucas decomposition):
`w = [2**n for n in range(M)]` followed by
`w.append(weight_capacity + 1 - 2**M)`. -/
def slackWeights (weight_capacity : ℕ) : List ℕ :=
  (List.range (slackM weight_capacity)).map (2 ^ ·) ++
    [weight_capacity + 1 - 2 ^ slackM weight_capacity]

/-- `num_slack_variables = M + 1` from the combined notebook. -/
def numSlack (weight_capacity : ℕ) : ℕ := slackM weight_capacity + 1

/-- All subset sums of a list of weights: the weighted sums `Σ w_k * b_k`
over binary assignments `b`. -/
def sumsOf : List ℕ → Finset ℕ
  | [] => {0}
  | w :: ws => sumsOf ws ∪ (sumsOf ws).image (w + ·)

/-- Weighted sum `Σ w_k * b_k` of a weight list against a binary assignment. -/
def weightedSum : List ℕ → List Bool → ℕ
  | wt :: ws, b :: bs => (if b then wt else 0) + weightedSum ws bs
  | _, _ => 0

/-- The slack setup of the combined notebook applied to a general integer
bound.  Python's `math.log2` raises `ValueError: math domain error` for a
non-positive argument, so `floor(log2(bound))` — and with it the whole
encoding — fails for every `bound ≤ 0`; failure is rendered as `none`. -/
def encodeBounded (bound : ℤ) : Option (List ℕ) :=
  if bound ≤ 0 then none else some (slackWeights bound.toNat)

/-- Replacement write on an association list: the semantics of
`bqm.quadratic[key] = value`, `dqm.set_linear` and `dqm.set_quadratic`
(dimod stores the new bias, discarding any previous one; a fresh key is
appended in insertion order, as in a Python dict). -/
def assocSet {κ : Type} {ν : Type} [DecidableEq κ] :
    List (κ × ν) → κ → ν → List (κ × ν)
  | [], k, c => [(k, c)]
  | e :: rest, k, c =>
      if e.1 = k then (k, c) :: rest else e :: assocSet rest k c

/-- Accumulating write on an association list: the semantics of
`bqm.add_variable(v, bias)` (dimod adds the bias to an existing linear
bias; a fresh variable is appended). -/
def assocAdd {κ : Type} [DecidableEq κ] :
    List (κ × ℤ) → κ → ℤ → List (κ × ℤ)
  | [], k, c => [(k, c)]
  | e :: rest, k, c =>
      if e.1 = k then (k, e.2 + c) :: rest else e :: assocAdd rest k c

/-- Coefficient stored for a key in an association list. -/
def assocGet {κ : Type} {ν : Type} [DecidableEq κ]
    (m : List (κ × ν)) (k : κ) : Option ν :=
  (m.find? fun e => decide (e.1 = k)).map (·.2)

/-- Apply a whole sequence of replacement writes, left to right. -/
def assocSetAll {κ : Type} {ν : Type} [DecidableEq κ]
    (l : List (κ × ν)) : List (κ × ν) :=
  l.foldl (fun m e => assocSet m e.1 e.2) []

/-- Apply a whole sequence of accumulating writes, left to right. -/
def assocAddAll {κ : Type} [DecidableEq κ]
    (l : List (κ × ℤ)) : List (κ × ℤ) :=
  l.foldl (fun m e => assocAdd m e.1 e.2) []

/-- A single quadratic write with dimod's self-loop check: dimod raises
`ValueError` when asked to store an interaction of a variable with itself,
rendered here as `none`. -/
def setQuadChecked {ν : Type} (m : List ((ZVar × ZVar) × ν))
    (k : ZVar × ZVar) (c : ν) : Option (List ((ZVar × ZVar) × ν)) :=
  if k.1 = k.2 then none else some (assocSet m k c)

/-- Apply a sequence of checked quadratic writes; fails if any write is a
self-pair. -/
def setQuadCheckedAll {ν : Type} (l : List ((ZVar × ZVar) × ν)) :
    Option (List ((ZVar × ZVar) × ν)) :=
  l.foldlM (fun m e => setQuadChecked m e.1 e.2) []

/-- Indicator table of `build_setcover_bqm`:
`I.append([1 if U[a] in V[i] else 0 for a in range(len(U))])`. -/
def ind {α : Type} [DecidableEq α] (U : List α) (V : List (List α))
    (i a : ℕ) : ℤ :=
  match U[a]?, V[i]? with
  | some el, some s => if el ∈ s then 1 else 0
  | _, _ => 0

/-- `sum(I[i])` from `build_setcover_bqm`. -/
def rowSumI {α : Type} [DecidableEq α] (U : List α) (V : List (List α))
    (i : ℕ) : ℤ :=
  ((List.range U.length).map fun a => ind U V i a).sum

/-- `np.dot(np.array(I[i]), np.array(I[j]))` from `build_setcover_bqm`. -/
def dotI {α : Type} [DecidableEq α] (U : List α) (V : List (List α))
    (i j : ℕ) : ℤ :=
  ((List.range U.length).map fun a => ind U V i a * ind U V j a).sum

/-- Lagrange multiplier `A = 2` hard-coded in `build_setcover_bqm`. -/
def scA : ℤ := 2

/-- Lagrange multiplier `B = 1` hard-coded in `build_setcover_bqm`. -/
def scB : ℤ := 1

/-- The linear writes of `build_setcover_bqm`, in execution order:
`bqm.add_variable('x_'+str(i+1), A*sum(I[i])+B)` for `i in range(0,len(V))`,
then `bqm.add_variable('y_(a, m)', A*(m**2-1))` for `a in range(1,len(U)+1)`,
`m in range(1,len(V)+1)`. -/
def setcoverLinWrites {α : Type} [DecidableEq α] (U : List α)
    (V : List (List α)) : List (ZVar × ℤ) :=
  ((List.range V.length).map fun i =>
    (ZVar.x (i + 1), scA * rowSumI U V i + scB)) ++
  ((pyRange 1 (U.length + 1)).flatMap fun a =>
    (pyRange 1 (V.length + 1)).map fun m =>
      (ZVar.y a m, scA * ((m : ℤ) ^ 2 - 1)))

/-- The quadratic writes of `build_setcover_bqm`, in execution order:
the `x_i`–`x_j` loop (`j in range(i+1, len(V)+1)`), the `y_am`–`y_an` loop
(`n in range(m+1, len(V)+1)`), then the `x_i`–`y_am` loop.  Each write is
`bqm.quadratic[key] = value`. -/
def setcoverQuadWrites {α : Type} [DecidableEq α] (U : List α)
    (V : List (List α)) : List ((ZVar × ZVar) × ℤ) :=
  ((pyRange 1 (V.length + 1)).flatMap fun i =>
    (pyRange (i + 1) (V.length + 1)).map fun j =>
      ((ZVar.x i, ZVar.x j), 2 * scA * dotI U V (i - 1) (j - 1))) ++
  ((pyRange 1 (V.length + 1)).flatMap fun m =>
    (pyRange (m + 1) (V.length + 1)).flatMap fun n =>
      (pyRange 1 (U.length + 1)).map fun a =>
        ((ZVar.y a m, ZVar.y a n), 2 * scA * (1 + (m : ℤ) * n))) ++
  ((pyRange 1 (V.length + 1)).flatMap fun i =>
    (pyRange 1 (V.length + 1)).flatMap fun m =>
      (pyRange 1 (U.length + 1)).map fun a =>
        ((ZVar.x i, ZVar.y a m), -2 * scA * (m : ℤ) * ind U V (i - 1) (a - 1)))

/-- Finished linear map of `build_setcover_bqm` (accumulating
`add_variable` writes applied in order). -/
def setcoverLinMap {α : Type} [DecidableEq α] (U : List α)
    (V : List (List α)) : List (ZVar × ℤ) :=
  assocAddAll (setcoverLinWrites U V)

/-- Finished quadratic map of `build_setcover_bqm` (replacing
`bqm.quadratic[key] = value` writes applied in order). -/
def setcoverQuadMap {α : Type} [DecidableEq α] (U : List α)
    (V : List (List α)) : List ((ZVar × ZVar) × ℤ) :=
  assocSetAll (setcoverQuadWrites U V)

/-- Energy of a binary quadratic model at a 0/1 assignment:
`Σ linear_v · val(v) + Σ quadratic_(u,v) · val(u) · val(v)`. -/
def energyB (lin : List (ZVar × ℤ)) (quad : List ((ZVar × ZVar) × ℤ))
    (σ : ZVar → Bool) : ℤ :=
  (lin.map fun e => e.2 * bval (σ e.1)).sum +
    (quad.map fun e => e.2 * bval (σ e.1.1) * bval (σ e.1.2)).sum

/-- Energy of the model built by `build_setcover_bqm U V`. -/
def setcoverEnergy {α : Type} [DecidableEq α] (U : List α)
    (V : List (List α)) (σ : ZVar → Bool) : ℤ :=
  energyB (setcoverLinMap U V) (setcoverQuadMap U V) σ

/-- Universe `{a, b}` of the literal coverage scenario, rendered as `[0, 1]`. -/
def scU3 : List ℕ := [0, 1]

/-- Candidate sets `[{a}, {a,b}]` of the literal coverage scenario. -/
def scV3 : List (List ℕ) := [[0], [0, 1]]

/-- Assignment of the six binary variables of `build_setcover_bqm scU3 scV3`,
in the order `x_1, x_2, y_(1,1), y_(1,2), y_(2,1), y_(2,2)`. -/
def asg6 (t : Bool × Bool × Bool × Bool × Bool × Bool) : ZVar → Bool :=
  fun v =>
    match v with
    | .x 1 => t.1
    | .x 2 => t.2.1
    | .y 1 1 => t.2.2.1
    | .y 1 2 => t.2.2.2.1
    | .y 2 1 => t.2.2.2.2.1
    | .y 2 2 => t.2.2.2.2.2
    | _ => false

/-- Energy of the `scU3`/`scV3` model as a function of the six binary values. -/
def scEnergy3 (t : Bool × Bool × Bool × Bool × Bool × Bool) : ℤ :=
  setcoverEnergy scU3 scV3 (asg6 t)

/-- Input data of the combined knapsack + set-cover DQM builder
(cells 5–8 of the checkpoint notebook): `u = x_size = len(values)` items,
`n = len(S)` suppliers, the item×supplier cost table `W` (with `-1` written
for a pair where the supplier does not stock the item), the selling prices
`values = V`, the purchase bounds `bound` before the `bound = [b+1 for b in
bound]` adjustment, the budget `Wcap = Wbudget`, the Lagrange weights
`lagrange = max(values)*0.5`, `C = 0`, `A = 2000`, `B = 1000`, and the
indicator table `I`. -/
structure CombinedData where
  u : ℕ
  n : ℕ
  W : ℕ → ℕ → ℤ
  values : ℕ → ℤ
  bound0 : ℕ → ℕ
  Wcap : ℕ
  lagrange : ℚ
  C : ℚ
  A : ℤ
  B : ℤ
  I : ℕ → ℕ → ℤ

/-- Slack weight `w[j]` of the combined notebook. -/
def wgt (d : CombinedData) (j : ℕ) : ℕ := (slackWeights d.Wcap).getD j 0

/-- `sum(I[i])` in the combined notebook (row sum of the indicator table). -/
def rowSumID (d : CombinedData) (i : ℕ) : ℤ :=
  ((List.range d.u).map fun a => d.I i a).sum

/-- `np.dot(np.array(I[i]), np.array(I[j]))` in the combined notebook. -/
def dotID (d : CombinedData) (i j : ℕ) : ℤ :=
  ((List.range d.u).map fun a => d.I i a * d.I j a).sum

/-- Linear bias array of a purchase variable (`Hamiltonian zi-zi terms`):
`lagrange * (weights[k][s]**2) * (np.array(pieces)**2) + (C-values[k])*pieces`
evaluated at piece value `p`. -/
def zLinBias (d : CombinedData) (k s : ℕ) (p : ℕ) : ℚ :=
  d.lagrange * (d.W k s : ℚ) ^ 2 * (p : ℚ) ^ 2 +
    (d.C - (d.values k : ℚ)) * (p : ℚ)

/-- Linear bias array of a slack variable (`Hamiltonian y-y terms`):
`lagrange * np.array([0,1]) * (w[k]**2)` evaluated at case `c`. -/
def wLinBias (d : CombinedData) (k : ℕ) (c : ℕ) : ℚ :=
  d.lagrange * (c : ℚ) * (wgt d k : ℚ) ^ 2

/-- Linear bias array of a supplier variable in the combined model:
`(A*sum(I[i])+B) * np.array([0,1])` evaluated at case `c`. -/
def xLinBiasD (d : CombinedData) (i : ℕ) (c : ℕ) : ℚ :=
  ((d.A * rowSumID d i + d.B : ℤ) : ℚ) * (c : ℚ)

/-- Linear bias array of a coverage-counter variable in the combined model:
`A*(m**2-1) * np.array([0,1])` evaluated at case `c`. -/
def yLinBiasD (d : CombinedData) (m : ℕ) (c : ℕ) : ℚ :=
  ((d.A * ((m : ℤ) ^ 2 - 1) : ℤ) : ℚ) * (c : ℚ)

/-- Quadratic bias dict of a `z`–`z` pair (`Hamiltonian xi-xj terms`):
`biases_dict[(piece1, piece2)] = (2*lagrange*weights[i][s1]*weights[j][s2]) *
piece1*piece2`. -/
def zzBias (d : CombinedData) (i s1 j s2 : ℕ) (p1 p2 : ℕ) : ℚ :=
  2 * d.lagrange * (d.W i s1 : ℚ) * (d.W j s2 : ℚ) * (p1 : ℚ) * (p2 : ℚ)

/-- Quadratic bias dict of a `w`–`w` pair (`Hamiltonian yi-yj terms`):
`{(1,1): 2*lagrange*w[i]*w[j]}`; absent case pairs carry bias `0`. -/
def wwBias (d : CombinedData) (i j : ℕ) (c1 c2 : ℕ) : ℚ :=
  if c1 = 1 ∧ c2 = 1 then 2 * d.lagrange * (wgt d i : ℚ) * (wgt d j : ℚ)
  else 0

/-- Quadratic bias dict of a `z`–`w` pair (`Hamiltonian x-y terms`):
`biases_dict[(piece1, 1)] = -2*lagrange*weights[i][s]*w[j]*piece1`. -/
def zwBias (d : CombinedData) (i s j : ℕ) (p c : ℕ) : ℚ :=
  if c = 1 then -2 * d.lagrange * (d.W i s : ℚ) * (wgt d j : ℚ) * (p : ℚ)
  else 0

/-- Quadratic bias dict of an `x`–`x` pair in the combined model:
`{(1,1): 2*A*np.dot(np.array(I[i-1]), np.array(I[j-1]))}`. -/
def xxBiasD (d : CombinedData) (i j : ℕ) (c1 c2 : ℕ) : ℚ :=
  if c1 = 1 ∧ c2 = 1 then ((2 * d.A * dotID d (i - 1) (j - 1) : ℤ) : ℚ)
  else 0

/-- Quadratic bias dict of a `y`–`y` pair in the combined model:
`{(1,1): 2*A*(1+m*n)}`. -/
def yyBiasD (d : CombinedData) (m n : ℕ) (c1 c2 : ℕ) : ℚ :=
  if c1 = 1 ∧ c2 = 1 then ((2 * d.A * (1 + (m : ℤ) * (n : ℤ)) : ℤ) : ℚ)
  else 0

/-- Quadratic bias dict of an `x`–`y` pair in the combined model:
`{(1,1): -2*A*m*I[i-1][a-1]}`. -/
def xyBiasD (d : CombinedData) (i m a : ℕ) (c1 c2 : ℕ) : ℚ :=
  if c1 = 1 ∧ c2 = 1 then ((-2 * d.A * (m : ℤ) * d.I (i - 1) (a - 1) : ℤ) : ℚ)
  else 0

/-- Quadratic bias dict written by the `Hamiltonian x-z terms in H3` loop:
`biases_dict[(piece1, 1)] = -C * piece1`. -/
def h3Bias (Cq : ℚ) (p c : ℕ) : ℚ :=
  if c = 1 then -Cq * (p : ℚ) else 0

/-- The `dqm.add_variable` calls of the combined builder, in execution order,
with the number of cases each variable is declared with: `z k,s` with
`bound[k]` cases (after `bound = [b+1 for b in bound]`, so the domain is
`{0, …, bound0 k}`), then the slack, supplier, and coverage variables with 2
cases each. -/
def combinedVars (d : CombinedData) : List (ZVar × ℕ) :=
  ((List.range d.u).flatMap fun k =>
    (List.range d.n).map fun s => (ZVar.z k s, d.bound0 k + 1)) ++
  ((List.range (numSlack d.Wcap)).map fun k => (ZVar.w k, 2)) ++
  ((List.range d.n).map fun i => (ZVar.x (i + 1), 2)) ++
  ((pyRange 1 (d.u + 1)).flatMap fun a =>
    (pyRange 1 (d.n + 1)).map fun m => (ZVar.y a m, 2))

/-- The `dqm.set_linear` calls of the combined builder, in execution order:
the `zi-zi` loop, the slack (`y-y`) loop, then the set-cover `x` and `y`
linear loops. -/
def combinedLinWrites (d : CombinedData) : List (ZVar × (ℕ → ℚ)) :=
  ((List.range d.u).flatMap fun k =>
    (List.range d.n).map fun s => (ZVar.z k s, zLinBias d k s)) ++
  ((List.range (numSlack d.Wcap)).map fun k => (ZVar.w k, wLinBias d k)) ++
  ((List.range d.n).map fun i => (ZVar.x (i + 1), xLinBiasD d i)) ++
  ((pyRange 1 (d.u + 1)).flatMap fun a =>
    (pyRange 1 (d.n + 1)).map fun m => (ZVar.y a m, yLinBiasD d m))

/-- The `dqm.set_quadratic` calls of the combined builder other than the H3
block, in execution order: `z`–`z` (`for i; for j in range(i+1, x_size);
for s1; for s2`), `w`–`w` (`for j in range(i+1, num_slack_variables)`),
`z`–`w`, then the set-cover `x`–`x`, `y`–`y`, `x`–`y` loops. -/
def combinedQuadBase (d : CombinedData) :
    List ((ZVar × ZVar) × (ℕ → ℕ → ℚ)) :=
  ((List.range d.u).flatMap fun i =>
    (pyRange (i + 1) d.u).flatMap fun j =>
      (List.range d.n).flatMap fun s1 =>
        (List.range d.n).map fun s2 =>
          ((ZVar.z i s1, ZVar.z j s2), zzBias d i s1 j s2)) ++
  ((List.range (numSlack d.Wcap)).flatMap fun i =>
    (pyRange (i + 1) (numSlack d.Wcap)).map fun j =>
      ((ZVar.w i, ZVar.w j), wwBias d i j)) ++
  ((List.range d.u).flatMap fun i =>
    (List.range d.n).flatMap fun s =>
      (List.range (numSlack d.Wcap)).map fun j =>
        ((ZVar.z i s, ZVar.w j), zwBias d i s j)) ++
  ((pyRange 1 (d.n + 1)).flatMap fun i =>
    (pyRange (i + 1) (d.n + 1)).map fun j =>
      ((ZVar.x i, ZVar.x j), xxBiasD d i j)) ++
  ((pyRange 1 (d.n + 1)).flatMap fun m =>
    (pyRange (m + 1) (d.n + 1)).flatMap fun n =>
      (pyRange 1 (d.u + 1)).map fun a =>
        ((ZVar.y a m, ZVar.y a n), yyBiasD d m n)) ++
  ((pyRange 1 (d.n + 1)).flatMap fun i =>
    (pyRange 1 (d.n + 1)).flatMap fun m =>
      (pyRange 1 (d.u + 1)).map fun a =>
        ((ZVar.x i, ZVar.y a m), xyBiasD d i m a))

/-- The `Hamiltonian x-z terms in H3` writes: `for i in range(x_size): for s
in range(1, len(S)): for j in range(num_slack_variables):
dqm.set_quadratic('z'+str(i)+','+str(s), 'x_'+str(s+1), biases_dict)`.
The key does not involve `j`, so the same pair is rewritten once per slack
variable. -/
def combinedH3Writes (d : CombinedData) :
    List ((ZVar × ZVar) × (ℕ → ℕ → ℚ)) :=
  (List.range d.u).flatMap fun i =>
    (pyRange 1 d.n).flatMap fun s =>
      (List.range (numSlack d.Wcap)).map fun _ =>
        ((ZVar.z i s, ZVar.x (s + 1)), h3Bias d.C)

/-- All quadratic writes of the combined builder, in execution order. -/
def combinedQuadWrites (d : CombinedData) :
    List ((ZVar × ZVar) × (ℕ → ℕ → ℚ)) :=
  combinedQuadBase d ++ combinedH3Writes d

/-- Finished linear map of the combined DQM. -/
def combinedLinMap (d : CombinedData) : List (ZVar × (ℕ → ℚ)) :=
  assocSetAll (combinedLinWrites d)

/-- Finished quadratic map of the combined DQM. -/
def combinedQuadMap (d : CombinedData) :
    List ((ZVar × ZVar) × (ℕ → ℕ → ℚ)) :=
  assocSetAll (combinedQuadWrites d)

/-- Finished quadratic map of the combined DQM built with the H3 block
omitted. -/
def combinedQuadMapNoH3 (d : CombinedData) :
    List ((ZVar × ZVar) × (ℕ → ℕ → ℚ)) :=
  assocSetAll (combinedQuadBase d)

/-- Energy of a discrete quadratic model at a case assignment:
`Σ linear_v(σ v) + Σ quadratic_(a,b)(σ a, σ b)`. -/
def energyD (lin : List (ZVar × (ℕ → ℚ)))
    (quad : List ((ZVar × ZVar) × (ℕ → ℕ → ℚ))) (σ : ZVar → ℕ) : ℚ :=
  (lin.map fun e => e.2 (σ e.1)).sum +
    (quad.map fun e => e.2 (σ e.1.1) (σ e.1.2)).sum

/-- Energy of the combined DQM. -/
def combinedEnergy (d : CombinedData) (σ : ZVar → ℕ) : ℚ :=
  energyD (combinedLinMap d) (combinedQuadMap d) σ

/-- Energy of the combined DQM built without the H3 block. -/
def combinedEnergyNoH3 (d : CombinedData) (σ : ZVar → ℕ) : ℚ :=
  energyD (combinedLinMap d) (combinedQuadMapNoH3 d) σ

/-- Canonical orientation of a quadratic key as the builders construct them:
`x`-pairs with `i < j`, `y`-pairs on one item with `m < n`, `z`-pairs with
item `i < j`, `w`-pairs with `i < j`, and the mixed pairs always written as
`(x, y)`, `(z, w)`, `(z, x)`. -/
def canonKeyB : ZVar × ZVar → Bool
  | (.x i, .x j) => decide (i < j)
  | (.y a m, .y b n) => decide (a = b) && decide (m < n)
  | (.x _, .y _ _) => true
  | (.z i _, .z j _) => decide (i < j)
  | (.w i, .w j) => decide (i < j)
  | (.z _ _, .w _) => true
  | (.z _ _, .x _) => true
  | _ => false

/-- Two ordered keys denote the same unordered variable pair. -/
def sameUnordered (k1 k2 : ZVar × ZVar) : Prop :=
  (k1.1 = k2.1 ∧ k1.2 = k2.2) ∨ (k1.1 = k2.2 ∧ k1.2 = k2.1)

/-- A small concrete instance of the combined builder's input data, used to
exercise the general theorems: one item, two suppliers, every cost marked
unavailable (`-1`), budget 1, and the notebook's `C = 0`, `A = 2000`,
`B = 1000` configuration. -/
def cdemo : CombinedData where
  u := 1
  n := 2
  W := fun _ _ => -1
  values := fun _ => 4
  bound0 := fun _ => 1
  Wcap := 1
  lagrange := 2
  C := 0
  A := 2000
  B := 1000
  I := fun _ _ => 0

/-- A quadratic key coupling a purchase variable `z` to a supplier variable
`x` (the only shape the H3 block writes). -/
def zxShaped (k : ZVar × ZVar) : Prop :=
  ∃ i s j, k = (ZVar.z i s, ZVar.x j)

/-! ### Basic lemmas: `pyRange`, `log2floorAux`, subset sums -/

theorem mem_pyRange {a b x : ℕ} : x ∈ pyRange a b ↔ a ≤ x ∧ x < b := by
  simp only [pyRange, List.mem_map, List.mem_range]
  constructor
  · rintro ⟨t, ht, rfl⟩
    omega
  · intro h
    exact ⟨x - a, by omega, by omega⟩

theorem log2floorAux_spec :
    ∀ fuel n : ℕ, 1 ≤ n → n ≤ fuel →
      2 ^ log2floorAux fuel n ≤ n ∧ n < 2 ^ (log2floorAux fuel n + 1) := by
  intro fuel
  induction fuel with
  | zero => omega
  | succ fuel ih =>
    intro n h1 hle
    rw [log2floorAux]
    by_cases hsmall : n ≤ 1
    · simp only [hsmall, if_true]
      constructor <;> omega
    · simp only [hsmall, if_false]
      have hdiv : n / 2 < n := Nat.div_lt_self (by omega) (by omega)
      obtain ⟨ihl, ihr⟩ := ih (n / 2) (by omega) (by omega)
      constructor
      · rw [pow_succ]
        omega
      · rw [pow_succ] at ihr
        rw [pow_succ, pow_succ]
        omega

theorem slackM_spec (n : ℕ) (h : 1 ≤ n) :
    2 ^ slackM n ≤ n ∧ n < 2 ^ (slackM n + 1) :=
  log2floorAux_spec n n h le_rfl

theorem slackM_eq_log (n : ℕ) : slackM n = Nat.log 2 n := by
  rcases Nat.eq_zero_or_pos n with rfl | hpos
  · simp [slackM, log2floorAux]
  · obtain ⟨h1, h2⟩ := slackM_spec n hpos
    exact (Nat.log_eq_of_pow_le_of_lt_pow h1 h2).symm

theorem sumsOf_append_singleton (ws : List ℕ) (w : ℕ) :
    sumsOf (ws ++ [w]) = sumsOf ws ∪ (sumsOf ws).image (w + ·) := by
  induction ws with
  | nil => simp [sumsOf]
  | cons a t ih =>
    have h1 : sumsOf ((a :: t) ++ [w]) =
        sumsOf (t ++ [w]) ∪ (sumsOf (t ++ [w])).image (a + ·) := rfl
    have h2 : sumsOf (a :: t) = sumsOf t ∪ (sumsOf t).image (a + ·) := rfl
    rw [h1, h2, ih]
    ext v
    simp only [Finset.mem_union, Finset.mem_image]
    constructor
    · rintro ((h | ⟨y, hy, rfl⟩) | ⟨y, hy, rfl⟩)
      · exact Or.inl (Or.inl h)
      · exact Or.inr ⟨y, Or.inl hy, rfl⟩
      · rcases hy with hy | ⟨z, hz, rfl⟩
        · exact Or.inl (Or.inr ⟨y, hy, rfl⟩)
        · exact Or.inr ⟨a + z, Or.inr ⟨z, hz, rfl⟩, by omega⟩
    · rintro ((h | ⟨y, hy, rfl⟩) | ⟨y, hy, rfl⟩)
      · exact Or.inl (Or.inl h)
      · exact Or.inr ⟨y, Or.inl hy, rfl⟩
      · rcases hy with hy | ⟨z, hz, rfl⟩
        · exact Or.inl (Or.inr ⟨y, hy, rfl⟩)
        · exact Or.inr ⟨w + z, Or.inr ⟨z, hz, rfl⟩, by omega⟩

theorem sumsOf_powers (M : ℕ) :
    sumsOf ((List.range M).map (2 ^ ·)) = Finset.range (2 ^ M) := by
  induction M with
  | zero => simp [sumsOf]
  | succ M ih =>
    rw [List.range_succ, List.map_append, List.map_singleton,
      sumsOf_append_singleton, ih]
    ext v
    simp only [Finset.mem_union, Finset.mem_image, Finset.mem_range, pow_succ]
    constructor
    · rintro (h | ⟨y, hy, rfl⟩) <;> omega
    · intro h
      by_cases hv : v < 2 ^ M
      · exact Or.inl hv
      · exact Or.inr ⟨v - 2 ^ M, by omega, by omega⟩

theorem mem_sumsOf (ws : List ℕ) (v : ℕ) :
    v ∈ sumsOf ws ↔
      ∃ bs : List Bool, bs.length = ws.length ∧ weightedSum ws bs = v := by
  induction ws generalizing v with
  | nil =>
    constructor
    · intro h
      have hv : v = 0 := by simpa [sumsOf] using h
      exact ⟨[], rfl, hv.symm⟩
    · rintro ⟨bs, hlen, rfl⟩
      obtain rfl : bs = [] := List.length_eq_zero.mp hlen
      simp [sumsOf, weightedSum]
  | cons w ws ih =>
    have h1 : sumsOf (w :: ws) = sumsOf ws ∪ (sumsOf ws).image (w + ·) := rfl
    rw [h1]
    simp only [Finset.mem_union, Finset.mem_image]
    constructor
    · rintro (h | ⟨y, hy, rfl⟩)
      · obtain ⟨bs, hlen, hsum⟩ := (ih v).mp h
        exact ⟨false :: bs, by simp [hlen], by simp [weightedSum, hsum]⟩
      · obtain ⟨bs, hlen, hsum⟩ := (ih y).mp hy
        exact ⟨true :: bs, by simp [hlen], by simp [weightedSum, hsum]⟩
    · rintro ⟨bs, hlen, rfl⟩
      cases bs with
      | nil => simp at hlen
      | cons b bs =>
        cases b
        · exact Or.inl ((ih _).mpr ⟨bs, by simpa using hlen, by
            simp [weightedSum]⟩)
        · exact Or.inr ⟨weightedSum ws bs,
            (ih _).mpr ⟨bs, by simpa using hlen, rfl⟩, by simp [weightedSum]⟩

theorem slack_weights_sums (bound : ℕ) (hB : 1 ≤ bound) :
    sumsOf (slackWeights bound) = Finset.range (bound + 1) := by
  obtain ⟨hp1, hp2⟩ := slackM_spec bound hB
  rw [pow_succ] at hp2
  rw [slackWeights, sumsOf_append_singleton, sumsOf_powers]
  ext v
  simp only [Finset.mem_union, Finset.mem_image, Finset.mem_range]
  constructor
  · rintro (h | ⟨y, hy, rfl⟩) <;> omega
  · intro h
    by_cases hv : v < 2 ^ slackM bound
    · exact Or.inl hv
    · exact Or.inr ⟨v - (bound + 1 - 2 ^ slackM bound), by omega, by omega⟩

/-- C1: for every bound `B ≥ 1` the slack encoding built from
`M = floor(log2 B)` — the `M+1` weights `2^0, …, 2^(M-1), B + 1 - 2^M`
used for the budget slack variables `w0 … wM` — spans exactly `{0, …, B}`:
its set of subset sums is `{0, …, B}`, i.e. the weighted sums over binary
assignments realize every integer from `0` to `B` and never exceed `B`. -/
theorem slack_encoding_spans_exactly (bound : ℕ) (hB : 1 ≤ bound) :
    sumsOf (slackWeights bound) = Finset.range (bound + 1) ∧
      ∀ v : ℕ,
        (∃ bs : List Bool, bs.length = slackM bound + 1 ∧
          weightedSum (slackWeights bound) bs = v) ↔ v ≤ bound := by
  have h := slack_weights_sums bound hB
  refine ⟨h, fun v => ?_⟩
  have hlen : (slackWeights bound).length = slackM bound + 1 := by
    simp [slackWeights]
  rw [← hlen, ← mem_sumsOf, h, Finset.mem_range]
  omega

/-- Witness for C1 at the concrete bound `10` (where the weights evaluate
to `[1, 2, 4, 3]`). -/
theorem slack_encoding_spans_exactly_witness :
    slackWeights 10 = [1, 2, 4, 3] ∧
      sumsOf (slackWeights 10) = Finset.range 11 :=
  ⟨by decide, (slack_encoding_spans_exactly 10 (by decide)).1⟩

/-- C8 counterexample: applied to bound `0` the piecewise/slack encoder does
not return a zero-piece encoding — `floor(log2(0))` raises a domain error in
the source, so the result is `none` rather than `some []`. -/
theorem encode_bound_zero_fails : encodeBounded 0 = none := by decide

/-- C8 amended: the encoder fails for bound `0` exactly as it does for
negative bounds (`math.log2` rejects every non-positive argument), and it
fails only there: a bound is encodable iff it is positive, and a positive
bound always yields a nonempty piece list (never zero pieces). -/
theorem encode_bounded_fails_iff_nonpos :
    (∀ bound : ℤ, encodeBounded bound = none ↔ bound ≤ 0) ∧
      ∀ bound : ℤ, 0 < bound →
        encodeBounded bound = some (slackWeights bound.toNat) ∧
          slackWeights bound.toNat ≠ [] := by
  constructor
  · intro bound
    by_cases h : bound ≤ 0 <;> simp [encodeBounded, h]
  · intro bound hb
    rw [encodeBounded, if_neg (by omega)]
    exact ⟨rfl, by simp [slackWeights]⟩

/-- Witness for the amended C8 at bounds `2` and `-3`. -/
theorem encode_bounded_fails_iff_nonpos_witness :
    encodeBounded 2 = some [1, 1] ∧ encodeBounded (-3) = none := by
  constructor
  · have h := encode_bounded_fails_iff_nonpos.2 2 (by decide)
    rw [h.1]
    decide
  · exact (encode_bounded_fails_iff_nonpos.1 (-3)).mpr (by decide)

/-! ### Association-list write semantics -/

theorem assocGet_cons {κ ν : Type} [DecidableEq κ] (e : κ × ν)
    (rest : List (κ × ν)) (k : κ) :
    assocGet (e :: rest) k = if e.1 = k then some e.2 else assocGet rest k := by
  by_cases h : e.1 = k <;> simp [assocGet, List.find?_cons, h]

theorem assocGet_assocSet_self {κ ν : Type} [DecidableEq κ] :
    ∀ (m : List (κ × ν)) (k : κ) (c : ν),
      assocGet (assocSet m k c) k = some c := by
  intro m k c
  induction m with
  | nil => simp [assocSet, assocGet]
  | cons e rest ih =>
    rw [assocSet]
    by_cases h : e.1 = k
    · simp [h, assocGet_cons]
    · rw [if_neg h, assocGet_cons, if_neg h, ih]

theorem assocGet_assocAdd_self {κ : Type} [DecidableEq κ] :
    ∀ (m : List (κ × ℤ)) (k : κ) (c : ℤ),
      assocGet (assocAdd m k c) k = some ((assocGet m k).getD 0 + c) := by
  intro m k c
  induction m with
  | nil => simp [assocAdd, assocGet]
  | cons e rest ih =>
    rw [assocAdd]
    by_cases h : e.1 = k
    · simp [h, assocGet_cons]
    · rw [if_neg h, assocGet_cons, if_neg h, ih, assocGet_cons, if_neg h]

/-- C4 counterexample: a quadratic map holding coefficient `1` for the pair
`(x_1, x_2)` maps that pair to `2` — not to `1 + 2` — after the write
`bqm.quadratic[('x_1', 'x_2')] = 2` (dimod assignment semantics). -/
theorem quadratic_write_not_accumulating :
    assocGet (assocSet [((ZVar.x 1, ZVar.x 2), (1 : ℚ))]
        (ZVar.x 1, ZVar.x 2) 2) (ZVar.x 1, ZVar.x 2) = some 2 ∧
      (2 : ℚ) ≠ 1 + 2 :=
  ⟨by decide, by norm_num⟩

/-- C4 amended: the quadratic writes the builders use
(`bqm.quadratic[key] = value`, `dqm.set_quadratic`) replace: after the
write the model maps the key to the new coefficient alone, whatever it held
before.  Only the `add_variable` linear write accumulates, mapping the
variable to the old coefficient (default `0`) plus the contribution. -/
theorem write_semantics_replace_and_accumulate :
    (∀ (m : List ((ZVar × ZVar) × ℚ)) (k : ZVar × ZVar) (c : ℚ),
        assocGet (assocSet m k c) k = some c) ∧
      ∀ (m : List (ZVar × ℤ)) (k : ZVar) (c : ℤ),
        assocGet (assocAdd m k c) k = some ((assocGet m k).getD 0 + c) :=
  ⟨fun m k c => assocGet_assocSet_self m k c,
    fun m k c => assocGet_assocAdd_self m k c⟩

theorem assocGet_eq_none_iff {κ ν : Type} [DecidableEq κ]
    (m : List (κ × ν)) (k : κ) :
    assocGet m k = none ↔ k ∉ m.map Prod.fst := by
  induction m with
  | nil => simp [assocGet]
  | cons e rest ih =>
    obtain ⟨e1, e2⟩ := e
    rw [assocGet_cons]
    by_cases h : e1 = k
    · subst h
      simp
    · rw [if_neg h, ih]
      simp only [List.map_cons, List.mem_cons]
      constructor
      · intro hk
        rintro (he | hm)
        · exact h he.symm
        · exact hk hm
      · intro hk hm
        exact hk (Or.inr hm)

theorem assocGet_eq_some_iff_mem {κ ν : Type} [DecidableEq κ]
    {m : List (κ × ν)} (hnd : (m.map Prod.fst).Nodup) (k : κ) (c : ν) :
    assocGet m k = some c ↔ (k, c) ∈ m := by
  induction m with
  | nil => simp [assocGet]
  | cons e rest ih =>
    obtain ⟨e1, e2⟩ := e
    simp only [List.map_cons, List.nodup_cons] at hnd
    rw [assocGet_cons]
    by_cases h : e1 = k
    · subst h
      rw [if_pos rfl]
      simp only [Option.some_inj, List.mem_cons, Prod.mk.injEq,
        eq_self_iff_true, true_and]
      constructor
      · intro he
        exact Or.inl he.symm
      · rintro (he | hm)
        · exact he.symm
        · exact absurd (List.mem_map_of_mem Prod.fst hm) hnd.1
    · rw [if_neg h, ih hnd.2]
      simp only [List.mem_cons, Prod.mk.injEq]
      constructor
      · exact Or.inr
      · rintro (⟨he, _⟩ | hm)
        · exact absurd he.symm h
        · exact hm

theorem assocSet_fresh {κ ν : Type} [DecidableEq κ]
    (m : List (κ × ν)) (k : κ) (c : ν) (h : k ∉ m.map Prod.fst) :
    assocSet m k c = m ++ [(k, c)] := by
  induction m with
  | nil => simp [assocSet]
  | cons e rest ih =>
    simp only [List.map_cons, List.mem_cons] at h
    push_neg at h
    rw [assocSet, if_neg (by exact fun he => h.1 he.symm), ih h.2,
      List.cons_append]

theorem foldl_assocSet_fresh {κ ν : Type} [DecidableEq κ] :
    ∀ (l acc : List (κ × ν)),
      (∀ k ∈ l.map Prod.fst, k ∉ acc.map Prod.fst) →
      (l.map Prod.fst).Nodup →
      l.foldl (fun m e => assocSet m e.1 e.2) acc = acc ++ l := by
  intro l
  induction l with
  | nil => simp
  | cons e t ih =>
    intro acc hfresh hnd
    simp only [List.map_cons, List.nodup_cons] at hnd
    rw [List.foldl_cons, assocSet_fresh acc e.1 e.2
      (hfresh e.1 (by simp)), ih (acc ++ [e]) ?_ hnd.2]
    · simp
    · intro k hk
      simp only [List.map_append, List.map_cons, List.map_nil,
        List.mem_append, List.mem_singleton]
      push_neg
      refine ⟨hfresh k (by simp [hk]), ?_⟩
      intro he
      exact hnd.1 (he ▸ hk)

theorem assocSetAll_eq_self {κ ν : Type} [DecidableEq κ]
    {l : List (κ × ν)} (hnd : (l.map Prod.fst).Nodup) :
    assocSetAll l = l := by
  rw [assocSetAll, foldl_assocSet_fresh l [] (by simp) hnd, List.nil_append]

/-- C5 counterexample: two write sequences that are permutations of the same
multiset of (key, coefficient) contributions — the same pair written with
`1` then `2`, and with `2` then `1` — produce different finished quadratic
maps, because the write replaces and the last write wins. -/
theorem write_order_dependent_on_repeated_key :
    List.Perm [((ZVar.x 1, ZVar.x 2), (1 : ℚ)), ((ZVar.x 1, ZVar.x 2), 2)]
        [((ZVar.x 1, ZVar.x 2), (2 : ℚ)), ((ZVar.x 1, ZVar.x 2), 1)] ∧
      assocGet (assocSetAll
          [((ZVar.x 1, ZVar.x 2), (1 : ℚ)), ((ZVar.x 1, ZVar.x 2), 2)])
          (ZVar.x 1, ZVar.x 2) ≠
        assocGet (assocSetAll
          [((ZVar.x 1, ZVar.x 2), (2 : ℚ)), ((ZVar.x 1, ZVar.x 2), 1)])
          (ZVar.x 1, ZVar.x 2) :=
  ⟨List.Perm.swap _ _ _, by decide⟩

/-- C5 amended: applying any two write sequences that are permutations of
one another yields identical coefficient maps provided the sequence writes
pairwise-distinct keys (as the finished builders' write lists do for every
key outside the H3 block, which rewrites one key with one fixed bias); with
a repeated key the last write wins and order matters. -/
theorem write_order_independent_on_distinct_keys {κ ν : Type}
    [DecidableEq κ] (l1 l2 : List (κ × ν)) (hp : List.Perm l1 l2)
    (hnd : (l1.map Prod.fst).Nodup) :
    ∀ k, assocGet (assocSetAll l1) k = assocGet (assocSetAll l2) k := by
  have hnd2 : (l2.map Prod.fst).Nodup := ((hp.map Prod.fst).nodup_iff).mp hnd
  intro k
  rw [assocSetAll_eq_self hnd, assocSetAll_eq_self hnd2]
  cases h : assocGet l1 k with
  | none =>
    have hk := (assocGet_eq_none_iff l1 k).mp h
    have hk2 : k ∉ l2.map Prod.fst := fun hm =>
      hk ((hp.map Prod.fst).mem_iff.mpr hm)
    exact ((assocGet_eq_none_iff l2 k).mpr hk2).symm
  | some c =>
    have hm := (assocGet_eq_some_iff_mem hnd k c).mp h
    exact ((assocGet_eq_some_iff_mem hnd2 k c).mpr (hp.subset hm)).symm

/-- Witness for the amended C5: two two-write sequences over distinct pairs,
in both orders, agree on the first pair. -/
theorem write_order_independent_witness :
    assocGet (assocSetAll
        [((ZVar.x 1, ZVar.x 2), (5 : ℚ)), ((ZVar.x 1, ZVar.x 3), 7)])
        (ZVar.x 1, ZVar.x 2) =
      assocGet (assocSetAll
        [((ZVar.x 1, ZVar.x 3), (7 : ℚ)), ((ZVar.x 1, ZVar.x 2), 5)])
        (ZVar.x 1, ZVar.x 2) :=
  write_order_independent_on_distinct_keys _ _ (List.Perm.swap _ _ _)
    (by decide) (ZVar.x 1, ZVar.x 2)

/-! ### The literal coverage scenario (universe `{a,b}`, sets `{a}`, `{a,b}`) -/

set_option maxHeartbeats 1000000 in
/-- C3: on the instance with universe `{a, b}` and candidate sets
`[{a}, {a,b}]`, the assignment `x = [0, 1]`, `y_(1,1) = y_(2,1) = 1` (select
only the set `{a, b}`) minimizes the energy of the model built by
`build_setcover_bqm` over all `2^6` binary assignments, and its energy is
strictly below the energy of every assignment whose `x`-part differs from
`[0, 1]` — in particular below the best achievable by selecting only `{a}`,
both sets, or neither. -/
theorem setcover_demo_optimum :
    (∀ t : Bool × Bool × Bool × Bool × Bool × Bool,
      scEnergy3 (false, true, true, false, true, false) ≤ scEnergy3 t) ∧
    ∀ t : Bool × Bool × Bool × Bool × Bool × Bool,
      (t.1, t.2.1) ≠ (false, true) →
        scEnergy3 (false, true, true, false, true, false) < scEnergy3 t := by
  decide

/-- Witness for C3: the optimum beats the best assignment selecting both
sets. -/
theorem setcover_demo_optimum_witness :
    scEnergy3 (false, true, true, false, true, false) <
      scEnergy3 (true, true, true, false, true, false) :=
  setcover_demo_optimum.2 (true, true, true, false, true, false) (by decide)

/-! ### Sum conversion and expansion helpers -/

theorem list_range_map_sum {M : Type} [AddCommMonoid M] (f : ℕ → M) :
    ∀ n : ℕ, ((List.range n).map f).sum = ∑ i in Finset.range n, f i := by
  intro n
  induction n with
  | zero => simp
  | succ n ih =>
    rw [List.range_succ, List.map_append, List.sum_append,
      Finset.sum_range_succ, ih]
    simp

theorem pyRange_map_sum {M : Type} [AddCommMonoid M] (f : ℕ → M)
    (a b : ℕ) :
    ((pyRange a b).map f).sum = ∑ t in Finset.range (b - a), f (a + t) := by
  rw [pyRange, List.map_map, list_range_map_sum]
  rfl

theorem flatMap_map_sum {β M : Type} [AddCommMonoid M] (l : List ℕ)
    (g : ℕ → List β) (f : β → M) :
    ((l.flatMap g).map f).sum = (l.map fun x => ((g x).map f).sum).sum := by
  induction l with
  | nil => simp
  | cons a t ih =>
    rw [List.flatMap_cons, List.map_append, List.sum_append, List.map_cons,
      List.sum_cons, ih]

theorem sq_sum_expand (f : ℕ → ℤ) (n : ℕ) :
    (∑ i in Finset.range n, f i) ^ 2 =
      ∑ i in Finset.range n, f i ^ 2 +
        2 * ∑ i in Finset.range n,
          ∑ t in Finset.range (n - (i + 1)), f i * f (i + 1 + t) := by
  induction n with
  | zero => simp
  | succ n ih =>
    have hL : ∑ i in Finset.range (n + 1), f i =
        (∑ i in Finset.range n, f i) + f n := Finset.sum_range_succ f n
    have hQ : ∑ i in Finset.range (n + 1), f i ^ 2 =
        (∑ i in Finset.range n, f i ^ 2) + f n ^ 2 :=
      Finset.sum_range_succ _ n
    have hdouble :
        ∑ i in Finset.range (n + 1),
          ∑ t in Finset.range (n + 1 - (i + 1)), f i * f (i + 1 + t) =
        (∑ i in Finset.range n,
          ∑ t in Finset.range (n - (i + 1)), f i * f (i + 1 + t)) +
          (∑ i in Finset.range n, f i) * f n := by
      rw [Finset.sum_range_succ, Nat.sub_self]
      simp only [Finset.range_zero, Finset.sum_empty, add_zero]
      rw [Finset.sum_mul, ← Finset.sum_add_distrib]
      apply Finset.sum_congr rfl
      intro i hi
      have hi2 : i < n := Finset.mem_range.mp hi
      have h1 : n + 1 - (i + 1) = (n - (i + 1)) + 1 := by omega
      rw [h1, Finset.sum_range_succ]
      have h2 : i + 1 + (n - (i + 1)) = n := by omega
      rw [h2]
    rw [hL, hQ, hdouble]
    linear_combination ih

/-! ### Nodup of the builders' key lists -/

theorem pyRange_nodup (a b : ℕ) : (pyRange a b).Nodup :=
  List.Nodup.map (fun p q h => by omega) (List.nodup_range _)

theorem nodup_flat {β : Type} (l : List ℕ) (f : ℕ → List β) (hl : l.Nodup)
    (h1 : ∀ i ∈ l, (f i).Nodup)
    (h2 : ∀ i1 ∈ l, ∀ i2 ∈ l, ∀ x, x ∈ f i1 → x ∈ f i2 → i1 = i2) :
    (l.flatMap f).Nodup := by
  induction l with
  | nil => simp
  | cons a t ih =>
    rw [List.flatMap_cons]
    simp only [List.nodup_cons] at hl
    apply List.Nodup.append
    · exact h1 a (by simp)
    · exact ih hl.2 (fun i hi => h1 i (by simp [hi]))
        (fun i1 hi1 i2 hi2 => h2 i1 (by simp [hi1]) i2 (by simp [hi2]))
    · intro x hxa hxt
      obtain ⟨j, hj, hxj⟩ := List.mem_flatMap.mp hxt
      have haj : a = j := h2 a (by simp) j (by simp [hj]) x hxa hxj
      exact hl.1 (haj ▸ hj)

theorem assocAdd_fresh {κ : Type} [DecidableEq κ]
    (m : List (κ × ℤ)) (k : κ) (c : ℤ) (h : k ∉ m.map Prod.fst) :
    assocAdd m k c = m ++ [(k, c)] := by
  induction m with
  | nil => simp [assocAdd]
  | cons e rest ih =>
    simp only [List.map_cons, List.mem_cons] at h
    push_neg at h
    rw [assocAdd, if_neg (fun he => h.1 he.symm), ih h.2, List.cons_append]

theorem foldl_assocAdd_fresh {κ : Type} [DecidableEq κ] :
    ∀ (l acc : List (κ × ℤ)),
      (∀ k ∈ l.map Prod.fst, k ∉ acc.map Prod.fst) →
      (l.map Prod.fst).Nodup →
      l.foldl (fun m e => assocAdd m e.1 e.2) acc = acc ++ l := by
  intro l
  induction l with
  | nil => simp
  | cons e t ih =>
    intro acc hfresh hnd
    simp only [List.map_cons, List.nodup_cons] at hnd
    rw [List.foldl_cons, assocAdd_fresh acc e.1 e.2
      (hfresh e.1 (by simp)), ih (acc ++ [e]) ?_ hnd.2]
    · simp
    · intro k hk
      simp only [List.map_append, List.map_cons, List.map_nil,
        List.mem_append, List.mem_singleton]
      push_neg
      refine ⟨hfresh k (by simp [hk]), ?_⟩
      intro he
      exact hnd.1 (he ▸ hk)

theorem assocAddAll_eq_self {κ : Type} [DecidableEq κ]
    {l : List (κ × ℤ)} (hnd : (l.map Prod.fst).Nodup) :
    assocAddAll l = l := by
  rw [assocAddAll, foldl_assocAdd_fresh l [] (by simp) hnd, List.nil_append]

theorem setcoverLin_keys_nodup {α : Type} [DecidableEq α] (U : List α)
    (V : List (List α)) :
    ((setcoverLinWrites U V).map Prod.fst).Nodup := by
  simp only [setcoverLinWrites, List.map_append, List.map_flatMap,
    List.map_map, Function.comp_def]
  apply List.Nodup.append
  · exact List.Nodup.map (fun p q h => by simpa using h) (List.nodup_range _)
  · apply nodup_flat _ _ (pyRange_nodup _ _)
    · intro a _
      exact List.Nodup.map (fun p q h => by simpa using h) (pyRange_nodup _ _)
    · intro a1 _ a2 _ k hk1 hk2
      simp only [List.mem_map] at hk1 hk2
      obtain ⟨m1, _, rfl⟩ := hk1
      obtain ⟨m2, _, hk⟩ := hk2
      simp only [ZVar.y.injEq] at hk
      exact hk.1.symm
  · intro k hk1 hk2
    simp only [List.mem_map] at hk1
    simp only [List.mem_flatMap, List.mem_map] at hk2
    obtain ⟨i, _, rfl⟩ := hk1
    obtain ⟨a, _, m, _, hk⟩ := hk2
    simp at hk

theorem setcoverQuad_keys_nodup {α : Type} [DecidableEq α] (U : List α)
    (V : List (List α)) :
    ((setcoverQuadWrites U V).map Prod.fst).Nodup := by
  simp only [setcoverQuadWrites, List.map_append, List.map_flatMap,
    List.map_map, Function.comp_def]
  apply List.Nodup.append
  · apply List.Nodup.append
    · apply nodup_flat _ _ (pyRange_nodup _ _)
      · intro i _
        exact List.Nodup.map (fun p q h => by simpa using h)
          (pyRange_nodup _ _)
      · intro i1 _ i2 _ k hk1 hk2
        simp only [List.mem_map] at hk1 hk2
        obtain ⟨j1, _, rfl⟩ := hk1
        obtain ⟨j2, _, hk⟩ := hk2
        simp only [Prod.mk.injEq, ZVar.x.injEq] at hk
        exact hk.1.symm
    · apply nodup_flat _ _ (pyRange_nodup _ _)
      · intro m _
        apply nodup_flat _ _ (pyRange_nodup _ _)
        · intro nn _
          exact List.Nodup.map (fun p q h => by simpa using h)
            (pyRange_nodup _ _)
        · intro n1 _ n2 _ k hk1 hk2
          simp only [List.mem_map] at hk1 hk2
          obtain ⟨a1, _, rfl⟩ := hk1
          obtain ⟨a2, _, hk⟩ := hk2
          simp only [Prod.mk.injEq, ZVar.y.injEq] at hk
          exact hk.2.2.symm
      · intro m1 _ m2 _ k hk1 hk2
        simp only [List.mem_flatMap, List.mem_map] at hk1 hk2
        obtain ⟨n1, _, a1, _, rfl⟩ := hk1
        obtain ⟨n2, _, a2, _, hk⟩ := hk2
        simp only [Prod.mk.injEq, ZVar.y.injEq] at hk
        exact hk.1.2.symm
    · intro k hk1 hk2
      simp only [List.mem_flatMap, List.mem_map] at hk1 hk2
      obtain ⟨i, _, j, _, rfl⟩ := hk1
      obtain ⟨m, _, nn, _, a, _, hk⟩ := hk2
      simp at hk
  · apply nodup_flat _ _ (pyRange_nodup _ _)
    · intro i _
      apply nodup_flat _ _ (pyRange_nodup _ _)
      · intro m _
        exact List.Nodup.map (fun p q h => by simpa using h)
          (pyRange_nodup _ _)
      · intro m1 _ m2 _ k hk1 hk2
        simp only [List.mem_map] at hk1 hk2
        obtain ⟨a1, _, rfl⟩ := hk1
        obtain ⟨a2, _, hk⟩ := hk2
        simp only [Prod.mk.injEq, ZVar.y.injEq] at hk
        exact hk.2.2.symm
    · intro i1 _ i2 _ k hk1 hk2
      simp only [List.mem_flatMap, List.mem_map] at hk1 hk2
      obtain ⟨m1, _, a1, _, rfl⟩ := hk1
      obtain ⟨m2, _, a2, _, hk⟩ := hk2
      simp only [Prod.mk.injEq, ZVar.x.injEq] at hk
      exact hk.1.symm
  · intro k hk12 hk3
    simp only [List.mem_flatMap, List.mem_map] at hk3
    obtain ⟨i3, _, m3, _, a3, _, rfl⟩ := hk3
    simp only [List.mem_append, List.mem_flatMap, List.mem_map] at hk12
    rcases hk12 with ⟨i, _, j, _, hk⟩ | ⟨m, _, nn, _, a, _, hk⟩
    · simp at hk
    · simp at hk

/-! ### The set-cover energy identity (C2) -/

theorem setcoverLinMap_eq {α : Type} [DecidableEq α] (U : List α)
    (V : List (List α)) : setcoverLinMap U V = setcoverLinWrites U V := by
  rw [setcoverLinMap]
  exact assocAddAll_eq_self (setcoverLin_keys_nodup U V)

theorem setcoverQuadMap_eq {α : Type} [DecidableEq α] (U : List α)
    (V : List (List α)) : setcoverQuadMap U V = setcoverQuadWrites U V := by
  rw [setcoverQuadMap]
  exact assocSetAll_eq_self (setcoverQuad_keys_nodup U V)

theorem penalty_expand_one (n : ℕ) (Y X Ia : ℕ → ℤ)
    (hY : ∀ m, Y m = 0 ∨ Y m = 1) (hX : ∀ i, X i = 0 ∨ X i = 1)
    (hIa : ∀ i, Ia i = 0 ∨ Ia i = 1) :
    scA * (1 - ∑ m in Finset.range n, Y m) ^ 2 +
      scA * ((∑ m in Finset.range n, ((m : ℤ) + 1) * Y m) -
        ∑ i in Finset.range n, Ia i * X i) ^ 2 =
    scA + (∑ m in Finset.range n, scA * (((m : ℤ) + 1) ^ 2 - 1) * Y m) +
      (∑ m in Finset.range n, ∑ t in Finset.range (n - (m + 1)),
        2 * scA * (1 + ((m : ℤ) + 1) * ((m : ℤ) + 1 + (t : ℤ) + 1)) *
          (Y m * Y (m + 1 + t))) +
      scA * (∑ i in Finset.range n, Ia i * X i) +
      (∑ i in Finset.range n, ∑ t in Finset.range (n - (i + 1)),
        2 * scA * (Ia i * Ia (i + 1 + t)) * (X i * X (i + 1 + t))) +
      (∑ i in Finset.range n, ∑ m in Finset.range n,
        -(2 * scA * ((m : ℤ) + 1) * Ia i * (X i * Y m))) := by
  have h1 : (∑ m in Finset.range n, Y m) ^ 2 =
      (∑ m in Finset.range n, Y m) +
        2 * ∑ m in Finset.range n, ∑ t in Finset.range (n - (m + 1)),
          Y m * Y (m + 1 + t) := by
    rw [sq_sum_expand Y n]
    congr 1
    exact Finset.sum_congr rfl fun m _ => by
      rcases hY m with h | h <;> rw [h] <;> ring
  have h2 : (∑ m in Finset.range n, ((m : ℤ) + 1) * Y m) ^ 2 =
      (∑ m in Finset.range n, ((m : ℤ) + 1) ^ 2 * Y m) +
        2 * ∑ m in Finset.range n, ∑ t in Finset.range (n - (m + 1)),
          (((m : ℤ) + 1) * Y m) *
            ((((m + 1 + t : ℕ) : ℤ) + 1) * Y (m + 1 + t)) := by
    rw [sq_sum_expand (fun m => ((m : ℤ) + 1) * Y m) n]
    congr 1
    exact Finset.sum_congr rfl fun m _ => by
      rcases hY m with h | h <;> rw [h] <;> ring
  have h3 : (∑ i in Finset.range n, Ia i * X i) ^ 2 =
      (∑ i in Finset.range n, Ia i * X i) +
        2 * ∑ i in Finset.range n, ∑ t in Finset.range (n - (i + 1)),
          (Ia i * X i) * (Ia (i + 1 + t) * X (i + 1 + t)) := by
    rw [sq_sum_expand (fun i => Ia i * X i) n]
    congr 1
    exact Finset.sum_congr rfl fun i _ => by
      rcases hIa i with h | h <;> rcases hX i with h2 | h2 <;>
        rw [h, h2] <;> ring
  have h4 : (∑ m in Finset.range n, ((m : ℤ) + 1) * Y m) *
      (∑ i in Finset.range n, Ia i * X i) =
      ∑ m in Finset.range n, ∑ i in Finset.range n,
        (((m : ℤ) + 1) * Y m) * (Ia i * X i) :=
    Finset.sum_mul_sum _ _ _ _
  have h5 : (∑ m in Finset.range n, ∑ t in Finset.range (n - (m + 1)),
      2 * scA * (1 + ((m : ℤ) + 1) * ((m : ℤ) + 1 + (t : ℤ) + 1)) *
        (Y m * Y (m + 1 + t))) =
      2 * scA * (∑ m in Finset.range n, ∑ t in Finset.range (n - (m + 1)),
          Y m * Y (m + 1 + t)) +
        2 * scA * ∑ m in Finset.range n, ∑ t in Finset.range (n - (m + 1)),
          (((m : ℤ) + 1) * Y m) *
            ((((m + 1 + t : ℕ) : ℤ) + 1) * Y (m + 1 + t)) := by
    rw [Finset.mul_sum, Finset.mul_sum, ← Finset.sum_add_distrib]
    refine Finset.sum_congr rfl fun m _ => ?_
    rw [Finset.mul_sum, Finset.mul_sum, ← Finset.sum_add_distrib]
    refine Finset.sum_congr rfl fun t _ => ?_
    push_cast
    ring
  have h6 : (∑ i in Finset.range n, ∑ t in Finset.range (n - (i + 1)),
      2 * scA * (Ia i * Ia (i + 1 + t)) * (X i * X (i + 1 + t))) =
      2 * scA * ∑ i in Finset.range n, ∑ t in Finset.range (n - (i + 1)),
        (Ia i * X i) * (Ia (i + 1 + t) * X (i + 1 + t)) := by
    rw [Finset.mul_sum]
    refine Finset.sum_congr rfl fun i _ => ?_
    rw [Finset.mul_sum]
    refine Finset.sum_congr rfl fun t _ => ?_
    ring
  have h7 : (∑ i in Finset.range n, ∑ m in Finset.range n,
      -(2 * scA * ((m : ℤ) + 1) * Ia i * (X i * Y m))) =
      -(2 * scA) * ∑ m in Finset.range n, ∑ i in Finset.range n,
        (((m : ℤ) + 1) * Y m) * (Ia i * X i) := by
    rw [Finset.mul_sum, Finset.sum_comm]
    refine Finset.sum_congr rfl fun i _ => ?_
    rw [Finset.mul_sum]
    refine Finset.sum_congr rfl fun m _ => ?_
    ring
  have h8 : (∑ m in Finset.range n, scA * (((m : ℤ) + 1) ^ 2 - 1) * Y m) =
      scA * (∑ m in Finset.range n, ((m : ℤ) + 1) ^ 2 * Y m) -
        scA * (∑ m in Finset.range n, Y m) := by
    rw [Finset.mul_sum, Finset.mul_sum, ← Finset.sum_sub_distrib]
    refine Finset.sum_congr rfl fun m _ => ?_
    ring
  linear_combination scA * h1 + scA * h2 + scA * h3 - 2 * scA * h4 - h8 -
    h5 - h6 - h7

theorem setcoverLin_sum {α : Type} [DecidableEq α] (U : List α)
    (V : List (List α)) (σ : ZVar → Bool) :
    ((setcoverLinWrites U V).map fun e => e.2 * bval (σ e.1)).sum =
      (∑ i in Finset.range V.length,
        (scA * rowSumI U V i + scB) * bval (σ (ZVar.x (i + 1)))) +
      ∑ a in Finset.range U.length, ∑ m in Finset.range V.length,
        scA * (((m : ℤ) + 1) ^ 2 - 1) * bval (σ (ZVar.y (a + 1) (m + 1))) := by
  rw [setcoverLinWrites, List.map_append, List.sum_append]
  congr 1
  · rw [List.map_map, list_range_map_sum]
    exact Finset.sum_congr rfl fun i _ => rfl
  · rw [flatMap_map_sum, pyRange_map_sum, Nat.add_sub_cancel]
    refine Finset.sum_congr rfl fun a _ => ?_
    rw [List.map_map, pyRange_map_sum, Nat.add_sub_cancel]
    refine Finset.sum_congr rfl fun m _ => ?_
    have e1 : 1 + a = a + 1 := by omega
    have e2 : 1 + m = m + 1 := by omega
    rw [e1, e2]
    simp only [Function.comp_def]
    push_cast
    ring

theorem setcoverQuad_sum {α : Type} [DecidableEq α] (U : List α)
    (V : List (List α)) (σ : ZVar → Bool) :
    ((setcoverQuadWrites U V).map
        fun e => e.2 * bval (σ e.1.1) * bval (σ e.1.2)).sum =
      (∑ i in Finset.range V.length,
        ∑ t in Finset.range (V.length - (i + 1)),
          2 * scA * dotI U V i (i + 1 + t) *
            (bval (σ (ZVar.x (i + 1))) * bval (σ (ZVar.x (i + 1 + t + 1))))) +
      (∑ m in Finset.range V.length,
        ∑ t in Finset.range (V.length - (m + 1)),
          ∑ a in Finset.range U.length,
            2 * scA * (1 + ((m : ℤ) + 1) * ((m : ℤ) + 1 + (t : ℤ) + 1)) *
              (bval (σ (ZVar.y (a + 1) (m + 1))) *
                bval (σ (ZVar.y (a + 1) (m + 1 + t + 1))))) +
      ∑ i in Finset.range V.length, ∑ m in Finset.range V.length,
        ∑ a in Finset.range U.length,
          -(2 * scA * ((m : ℤ) + 1) * ind U V i a *
            (bval (σ (ZVar.x (i + 1))) * bval (σ (ZVar.y (a + 1) (m + 1))))) := by
  rw [setcoverQuadWrites, List.map_append, List.sum_append, List.map_append,
    List.sum_append]
  congr 1
  congr 1
  · rw [flatMap_map_sum, pyRange_map_sum, Nat.add_sub_cancel]
    refine Finset.sum_congr rfl fun i _ => ?_
    rw [List.map_map, pyRange_map_sum]
    have hr : V.length + 1 - (1 + i + 1) = V.length - (i + 1) := by omega
    rw [hr]
    refine Finset.sum_congr rfl fun t _ => ?_
    simp only [Function.comp_def]
    have e1 : 1 + i - 1 = i := by omega
    have e2 : 1 + i + 1 + t - 1 = i + 1 + t := by omega
    have e3 : 1 + i = i + 1 := by omega
    rw [e1, e2, e3]
    have e4 : i + 1 + 1 + t = i + 1 + t + 1 := by omega
    rw [e4]
    ring
  · rw [flatMap_map_sum, pyRange_map_sum, Nat.add_sub_cancel]
    refine Finset.sum_congr rfl fun m _ => ?_
    rw [flatMap_map_sum, pyRange_map_sum]
    have hr : V.length + 1 - (1 + m + 1) = V.length - (m + 1) := by omega
    rw [hr]
    refine Finset.sum_congr rfl fun t _ => ?_
    rw [List.map_map, pyRange_map_sum, Nat.add_sub_cancel]
    refine Finset.sum_congr rfl fun a _ => ?_
    simp only [Function.comp_def]
    have e1 : 1 + a = a + 1 := by omega
    have e2 : 1 + m = m + 1 := by omega
    rw [e1, e2]
    have e3 : m + 1 + 1 + t = m + 1 + t + 1 := by omega
    rw [e3]
    push_cast
    ring
  · rw [flatMap_map_sum, pyRange_map_sum, Nat.add_sub_cancel]
    refine Finset.sum_congr rfl fun i _ => ?_
    rw [flatMap_map_sum, pyRange_map_sum, Nat.add_sub_cancel]
    refine Finset.sum_congr rfl fun m _ => ?_
    rw [List.map_map, pyRange_map_sum, Nat.add_sub_cancel]
    refine Finset.sum_congr rfl fun a _ => ?_
    simp only [Function.comp_def]
    have e1 : 1 + i - 1 = i := by omega
    have e2 : 1 + a - 1 = a := by omega
    have e3 : 1 + i = i + 1 := by omega
    have e4 : 1 + a = a + 1 := by omega
    have e5 : 1 + m = m + 1 := by omega
    rw [e1, e2, e3, e4, e5]
    push_cast
    ring

theorem bval01 (b : Bool) : bval b = 0 ∨ bval b = 1 := by
  cases b <;> simp [bval]

theorem ind01 {α : Type} [DecidableEq α] (U : List α) (V : List (List α))
    (i a : ℕ) : ind U V i a = 0 ∨ ind U V i a = 1 := by
  unfold ind
  rcases U[a]? with _ | el
  · exact Or.inl rfl
  · rcases V[i]? with _ | s
    · exact Or.inl rfl
    · by_cases h : el ∈ s
      · exact Or.inr (by simp [h])
      · exact Or.inl (by simp [h])

theorem rowSumI_eq {α : Type} [DecidableEq α] (U : List α)
    (V : List (List α)) (i : ℕ) :
    rowSumI U V i = ∑ a in Finset.range U.length, ind U V i a :=
  list_range_map_sum _ _

theorem dotI_eq {α : Type} [DecidableEq α] (U : List α)
    (V : List (List α)) (i j : ℕ) :
    dotI U V i j = ∑ a in Finset.range U.length, ind U V i a * ind U V j a :=
  list_range_map_sum _ _

/-- C2: for every universe `U`, family of sets `V`, and binary assignment
`σ`, the energy of the model produced by `build_setcover_bqm U V` (the sum
of its linear and quadratic coefficients, each weighted by the assigned
values) equals exactly
`A·Σ_a (1 − Σ_m y_(a,m))² + A·Σ_a (Σ_m m·y_(a,m) − Σ_i I_(i,a)·x_i)² +
B·Σ_i x_i − A·|U|` with the hard-coded `A = 2`, `B = 1`, in exact integer
arithmetic.  The dropped constant is `A·|U|`. -/
theorem setcover_energy_identity {α : Type} [DecidableEq α] (U : List α)
    (V : List (List α)) (σ : ZVar → Bool) :
    setcoverEnergy U V σ =
      scA * (∑ a in Finset.range U.length,
        (1 - ∑ m in Finset.range V.length,
          bval (σ (ZVar.y (a + 1) (m + 1)))) ^ 2) +
      scA * (∑ a in Finset.range U.length,
        ((∑ m in Finset.range V.length,
          ((m : ℤ) + 1) * bval (σ (ZVar.y (a + 1) (m + 1)))) -
         ∑ i in Finset.range V.length,
          ind U V i a * bval (σ (ZVar.x (i + 1)))) ^ 2) +
      scB * (∑ i in Finset.range V.length, bval (σ (ZVar.x (i + 1)))) -
      scA * (U.length : ℤ) := by
  have hlinx : (∑ i in Finset.range V.length,
      (scA * rowSumI U V i + scB) * bval (σ (ZVar.x (i + 1)))) =
      (∑ a in Finset.range U.length, ∑ i in Finset.range V.length,
        scA * (ind U V i a * bval (σ (ZVar.x (i + 1))))) +
      scB * ∑ i in Finset.range V.length, bval (σ (ZVar.x (i + 1))) := by
    have h1 : ∀ i, (scA * rowSumI U V i + scB) * bval (σ (ZVar.x (i + 1))) =
        (∑ a in Finset.range U.length,
          scA * (ind U V i a * bval (σ (ZVar.x (i + 1))))) +
        scB * bval (σ (ZVar.x (i + 1))) := by
      intro i
      rw [rowSumI_eq, add_mul, mul_assoc, Finset.sum_mul, Finset.mul_sum]
    calc (∑ i in Finset.range V.length,
        (scA * rowSumI U V i + scB) * bval (σ (ZVar.x (i + 1))))
        = ∑ i in Finset.range V.length,
            ((∑ a in Finset.range U.length,
              scA * (ind U V i a * bval (σ (ZVar.x (i + 1))))) +
             scB * bval (σ (ZVar.x (i + 1)))) :=
          Finset.sum_congr rfl fun i _ => h1 i
      _ = (∑ i in Finset.range V.length, ∑ a in Finset.range U.length,
            scA * (ind U V i a * bval (σ (ZVar.x (i + 1))))) +
          ∑ i in Finset.range V.length, scB * bval (σ (ZVar.x (i + 1))) :=
          Finset.sum_add_distrib
      _ = (∑ a in Finset.range U.length, ∑ i in Finset.range V.length,
            scA * (ind U V i a * bval (σ (ZVar.x (i + 1))))) +
          scB * ∑ i in Finset.range V.length, bval (σ (ZVar.x (i + 1))) := by
          congr 1
          · exact Finset.sum_comm
          · rw [Finset.mul_sum]
  have hdotel : ∀ i t, 2 * scA * dotI U V i (i + 1 + t) *
      (bval (σ (ZVar.x (i + 1))) * bval (σ (ZVar.x (i + 1 + t + 1)))) =
      ∑ a in Finset.range U.length,
        2 * scA * (ind U V i a * ind U V (i + 1 + t) a) *
          (bval (σ (ZVar.x (i + 1))) * bval (σ (ZVar.x (i + 1 + t + 1)))) := by
    intro i t
    rw [dotI_eq, Finset.mul_sum, Finset.sum_mul]
  have hxx : (∑ i in Finset.range V.length,
      ∑ t in Finset.range (V.length - (i + 1)),
        2 * scA * dotI U V i (i + 1 + t) *
          (bval (σ (ZVar.x (i + 1))) * bval (σ (ZVar.x (i + 1 + t + 1))))) =
      ∑ a in Finset.range U.length, ∑ i in Finset.range V.length,
        ∑ t in Finset.range (V.length - (i + 1)),
          2 * scA * (ind U V i a * ind U V (i + 1 + t) a) *
            (bval (σ (ZVar.x (i + 1))) * bval (σ (ZVar.x (i + 1 + t + 1)))) := by
    calc (∑ i in Finset.range V.length,
        ∑ t in Finset.range (V.length - (i + 1)),
          2 * scA * dotI U V i (i + 1 + t) *
            (bval (σ (ZVar.x (i + 1))) * bval (σ (ZVar.x (i + 1 + t + 1)))))
        = ∑ i in Finset.range V.length,
            ∑ t in Finset.range (V.length - (i + 1)),
              ∑ a in Finset.range U.length,
                2 * scA * (ind U V i a * ind U V (i + 1 + t) a) *
                  (bval (σ (ZVar.x (i + 1))) *
                    bval (σ (ZVar.x (i + 1 + t + 1)))) :=
          Finset.sum_congr rfl fun i _ =>
            Finset.sum_congr rfl fun t _ => hdotel i t
      _ = ∑ i in Finset.range V.length, ∑ a in Finset.range U.length,
            ∑ t in Finset.range (V.length - (i + 1)),
              2 * scA * (ind U V i a * ind U V (i + 1 + t) a) *
                (bval (σ (ZVar.x (i + 1))) *
                  bval (σ (ZVar.x (i + 1 + t + 1)))) :=
          Finset.sum_congr rfl fun i _ => Finset.sum_comm
      _ = ∑ a in Finset.range U.length, ∑ i in Finset.range V.length,
            ∑ t in Finset.range (V.length - (i + 1)),
              2 * scA * (ind U V i a * ind U V (i + 1 + t) a) *
                (bval (σ (ZVar.x (i + 1))) *
                  bval (σ (ZVar.x (i + 1 + t + 1)))) := Finset.sum_comm
  have hyy : (∑ m in Finset.range V.length,
      ∑ t in Finset.range (V.length - (m + 1)),
        ∑ a in Finset.range U.length,
          2 * scA * (1 + ((m : ℤ) + 1) * ((m : ℤ) + 1 + (t : ℤ) + 1)) *
            (bval (σ (ZVar.y (a + 1) (m + 1))) *
              bval (σ (ZVar.y (a + 1) (m + 1 + t + 1))))) =
      ∑ a in Finset.range U.length, ∑ m in Finset.range V.length,
        ∑ t in Finset.range (V.length - (m + 1)),
          2 * scA * (1 + ((m : ℤ) + 1) * ((m : ℤ) + 1 + (t : ℤ) + 1)) *
            (bval (σ (ZVar.y (a + 1) (m + 1))) *
              bval (σ (ZVar.y (a + 1) (m + 1 + t + 1)))) := by
    calc (∑ m in Finset.range V.length,
        ∑ t in Finset.range (V.length - (m + 1)),
          ∑ a in Finset.range U.length,
            2 * scA * (1 + ((m : ℤ) + 1) * ((m : ℤ) + 1 + (t : ℤ) + 1)) *
              (bval (σ (ZVar.y (a + 1) (m + 1))) *
                bval (σ (ZVar.y (a + 1) (m + 1 + t + 1)))))
        = ∑ m in Finset.range V.length, ∑ a in Finset.range U.length,
            ∑ t in Finset.range (V.length - (m + 1)),
              2 * scA * (1 + ((m : ℤ) + 1) * ((m : ℤ) + 1 + (t : ℤ) + 1)) *
                (bval (σ (ZVar.y (a + 1) (m + 1))) *
                  bval (σ (ZVar.y (a + 1) (m + 1 + t + 1)))) :=
          Finset.sum_congr rfl fun m _ => Finset.sum_comm
      _ = ∑ a in Finset.range U.length, ∑ m in Finset.range V.length,
            ∑ t in Finset.range (V.length - (m + 1)),
              2 * scA * (1 + ((m : ℤ) + 1) * ((m : ℤ) + 1 + (t : ℤ) + 1)) *
                (bval (σ (ZVar.y (a + 1) (m + 1))) *
                  bval (σ (ZVar.y (a + 1) (m + 1 + t + 1)))) := Finset.sum_comm
  have hxy : (∑ i in Finset.range V.length, ∑ m in Finset.range V.length,
      ∑ a in Finset.range U.length,
        -(2 * scA * ((m : ℤ) + 1) * ind U V i a *
          (bval (σ (ZVar.x (i + 1))) * bval (σ (ZVar.y (a + 1) (m + 1)))))) =
      ∑ a in Finset.range U.length, ∑ i in Finset.range V.length,
        ∑ m in Finset.range V.length,
          -(2 * scA * ((m : ℤ) + 1) * ind U V i a *
            (bval (σ (ZVar.x (i + 1))) *
              bval (σ (ZVar.y (a + 1) (m + 1))))) := by
    calc (∑ i in Finset.range V.length, ∑ m in Finset.range V.length,
        ∑ a in Finset.range U.length,
          -(2 * scA * ((m : ℤ) + 1) * ind U V i a *
            (bval (σ (ZVar.x (i + 1))) * bval (σ (ZVar.y (a + 1) (m + 1))))))
        = ∑ i in Finset.range V.length, ∑ a in Finset.range U.length,
            ∑ m in Finset.range V.length,
              -(2 * scA * ((m : ℤ) + 1) * ind U V i a *
                (bval (σ (ZVar.x (i + 1))) *
                  bval (σ (ZVar.y (a + 1) (m + 1))))) :=
          Finset.sum_congr rfl fun i _ => Finset.sum_comm
      _ = ∑ a in Finset.range U.length, ∑ i in Finset.range V.length,
            ∑ m in Finset.range V.length,
              -(2 * scA * ((m : ℤ) + 1) * ind U V i a *
                (bval (σ (ZVar.x (i + 1))) *
                  bval (σ (ZVar.y (a + 1) (m + 1))))) := Finset.sum_comm
  have hexpand : (∑ a in Finset.range U.length,
      (scA * (1 - ∑ m in Finset.range V.length,
          bval (σ (ZVar.y (a + 1) (m + 1)))) ^ 2 +
       scA * ((∑ m in Finset.range V.length,
          ((m : ℤ) + 1) * bval (σ (ZVar.y (a + 1) (m + 1)))) -
         ∑ i in Finset.range V.length,
          ind U V i a * bval (σ (ZVar.x (i + 1)))) ^ 2)) =
      ∑ a in Finset.range U.length,
        (scA + (∑ m in Finset.range V.length,
            scA * (((m : ℤ) + 1) ^ 2 - 1) *
              bval (σ (ZVar.y (a + 1) (m + 1)))) +
         (∑ m in Finset.range V.length,
            ∑ t in Finset.range (V.length - (m + 1)),
              2 * scA * (1 + ((m : ℤ) + 1) * ((m : ℤ) + 1 + (t : ℤ) + 1)) *
                (bval (σ (ZVar.y (a + 1) (m + 1))) *
                  bval (σ (ZVar.y (a + 1) (m + 1 + t + 1))))) +
         scA * (∑ i in Finset.range V.length,
            ind U V i a * bval (σ (ZVar.x (i + 1)))) +
         (∑ i in Finset.range V.length,
            ∑ t in Finset.range (V.length - (i + 1)),
              2 * scA * (ind U V i a * ind U V (i + 1 + t) a) *
                (bval (σ (ZVar.x (i + 1))) *
                  bval (σ (ZVar.x (i + 1 + t + 1))))) +
         ∑ i in Finset.range V.length, ∑ m in Finset.range V.length,
           -(2 * scA * ((m : ℤ) + 1) * ind U V i a *
             (bval (σ (ZVar.x (i + 1))) *
               bval (σ (ZVar.y (a + 1) (m + 1)))))) :=
    Finset.sum_congr rfl fun a _ =>
      penalty_expand_one V.length
        (fun m => bval (σ (ZVar.y (a + 1) (m + 1))))
        (fun i => bval (σ (ZVar.x (i + 1))))
        (fun i => ind U V i a)
        (fun m => bval01 _) (fun i => bval01 _) (fun i => ind01 U V i a)
  have hs3 : (∑ a in Finset.range U.length,
      scA * ∑ i in Finset.range V.length,
        ind U V i a * bval (σ (ZVar.x (i + 1)))) =
      ∑ a in Finset.range U.length, ∑ i in Finset.range V.length,
        scA * (ind U V i a * bval (σ (ZVar.x (i + 1)))) :=
    Finset.sum_congr rfl fun a _ => Finset.mul_sum _ _ _
  unfold setcoverEnergy
  rw [setcoverLinMap_eq, setcoverQuadMap_eq]
  unfold energyB
  rw [setcoverLin_sum, setcoverQuad_sum]
  rw [hlinx, hxx, hyy, hxy]
  conv_rhs => rw [Finset.mul_sum, Finset.mul_sum]
  conv_rhs => rw [← Finset.sum_add_distrib]
  rw [hexpand]
  rw [Finset.sum_add_distrib, Finset.sum_add_distrib, Finset.sum_add_distrib,
    Finset.sum_add_distrib, Finset.sum_add_distrib]
  rw [Finset.sum_const, Finset.card_range, nsmul_eq_mul]
  rw [hs3]
  ring

/-! ### Canonical key order and self-pair rejection (C6, C7) -/

theorem assocSet_keys {κ ν : Type} [DecidableEq κ]
    (m : List (κ × ν)) (k : κ) (c : ν) :
    (assocSet m k c).map Prod.fst =
      if k ∈ m.map Prod.fst then m.map Prod.fst
      else m.map Prod.fst ++ [k] := by
  induction m with
  | nil => simp [assocSet]
  | cons e rest ih =>
    by_cases h : e.1 = k
    · simp [assocSet, h]
    · have h2 : ¬k = e.1 := fun he => h he.symm
      by_cases hm : k ∈ rest.map Prod.fst <;>
        simp [assocSet, h, h2, ih, hm]

theorem assocSetAll_keys_nodup {κ ν : Type} [DecidableEq κ]
    (l : List (κ × ν)) : ((assocSetAll l).map Prod.fst).Nodup := by
  suffices h : ∀ acc : List (κ × ν), (acc.map Prod.fst).Nodup →
      ((l.foldl (fun m e => assocSet m e.1 e.2) acc).map Prod.fst).Nodup by
    exact h [] (by simp)
  induction l with
  | nil =>
    intro acc h
    simpa using h
  | cons e t ih =>
    intro acc h
    rw [List.foldl_cons]
    apply ih
    rw [assocSet_keys]
    split
    · exact h
    · rename_i hk
      exact List.Nodup.append h (List.nodup_singleton _)
        (fun a ha hb => hk (by rwa [List.mem_singleton.mp hb] at ha))

theorem assocSetAll_keys_sub {κ ν : Type} [DecidableEq κ]
    (l : List (κ × ν)) :
    ∀ k ∈ (assocSetAll l).map Prod.fst, k ∈ l.map Prod.fst := by
  suffices h : ∀ acc k,
      k ∈ ((l.foldl (fun m e => assocSet m e.1 e.2) acc).map Prod.fst) →
      k ∈ acc.map Prod.fst ∨ k ∈ l.map Prod.fst by
    intro k hk
    exact ((h [] k hk).resolve_left (by simp))
  induction l with
  | nil =>
    intro acc k hk
    exact Or.inl (by simpa using hk)
  | cons e t ih =>
    intro acc k hk
    rw [List.foldl_cons] at hk
    rcases ih (assocSet acc e.1 e.2) k hk with h | h
    · rw [assocSet_keys] at h
      split at h
      · exact Or.inl h
      · rcases List.mem_append.mp h with h | h
        · exact Or.inl h
        · exact Or.inr (by simp [List.mem_singleton.mp h])
    · exact Or.inr (by simp [h])

theorem setcoverQuad_keys_canon {α : Type} [DecidableEq α] (U : List α)
    (V : List (List α)) :
    ∀ k ∈ (setcoverQuadWrites U V).map Prod.fst, canonKeyB k = true := by
  intro k hk
  simp only [setcoverQuadWrites, List.map_append, List.map_flatMap,
    List.map_map, Function.comp_def, List.mem_append, List.mem_flatMap,
    List.mem_map, mem_pyRange] at hk
  rcases hk with (⟨i, hi, j, hj, rfl⟩ | ⟨m, hm, nn, hnn, a, ha, rfl⟩) |
    ⟨i, hi, m, hm, a, ha, rfl⟩
  · simp only [canonKeyB, decide_eq_true_eq]
    omega
  · simp only [canonKeyB, Bool.and_eq_true, decide_eq_true_eq]
    exact ⟨by trivial, by omega⟩
  · simp [canonKeyB]

theorem combinedQuad_keys_canon (d : CombinedData) :
    ∀ k ∈ (combinedQuadWrites d).map Prod.fst, canonKeyB k = true := by
  intro k hk
  simp only [combinedQuadWrites, combinedQuadBase, combinedH3Writes,
    List.map_append, List.map_flatMap, List.map_map, Function.comp_def,
    List.mem_append, List.mem_flatMap, List.mem_map, mem_pyRange,
    List.mem_range] at hk
  rcases hk with
    (((((⟨i, hi, j, hj, s1, hs1, s2, hs2, rfl⟩ | ⟨i, hi, j, hj, rfl⟩) |
      ⟨i, hi, s, hs, j, hj, rfl⟩) | ⟨i, hi, j, hj, rfl⟩) |
      ⟨m, hm, nn, hnn, a, ha, rfl⟩) | ⟨i, hi, m, hm, a, ha, rfl⟩) |
    ⟨i, hi, s, hs, j, hj, rfl⟩
  · simp only [canonKeyB, decide_eq_true_eq]
    omega
  · simp only [canonKeyB, decide_eq_true_eq]
    omega
  · simp [canonKeyB]
  · simp only [canonKeyB, decide_eq_true_eq]
    omega
  · simp only [canonKeyB, Bool.and_eq_true, decide_eq_true_eq]
    exact ⟨by trivial, by omega⟩
  · simp [canonKeyB]
  · simp [canonKeyB]

theorem canon_ne {k : ZVar × ZVar} (h : canonKeyB k = true) :
    k.1 ≠ k.2 := by
  obtain ⟨a, b⟩ := k
  cases a <;> cases b <;> simp [canonKeyB] at h ⊢ <;> omega

theorem canon_unique {k1 k2 : ZVar × ZVar} (h1 : canonKeyB k1 = true)
    (h2 : canonKeyB k2 = true) (hs : sameUnordered k1 k2) : k1 = k2 := by
  obtain ⟨a1, b1⟩ := k1
  obtain ⟨a2, b2⟩ := k2
  rcases hs with ⟨e1, e2⟩ | ⟨e1, e2⟩
  · dsimp only at e1 e2
    subst e1
    subst e2
    rfl
  · dsimp only at e1 e2
    subst e1
    subst e2
    cases a1 <;> cases b1 <;> simp [canonKeyB] at h1 h2 ⊢ <;> omega

/-- C6: every quadratic key either builder creates is in canonical pair
order — `x`-pairs only with `i < j`, `y`-pairs on one item only with
`m < n`, mixed pairs always oriented (`x`,`y`) / (`z`,`w`) / (`z`,`x`),
`z`-pairs with item `i < j`, `w`-pairs with `i < j` — and consequently the
finished models' quadratic maps hold at most one entry per unordered pair
of distinct variables. -/
theorem quad_keys_canonical_and_unique {α : Type} [DecidableEq α]
    (U : List α) (V : List (List α)) (d : CombinedData) :
    (∀ k ∈ (setcoverQuadWrites U V).map Prod.fst, canonKeyB k = true) ∧
    (∀ k ∈ (combinedQuadWrites d).map Prod.fst, canonKeyB k = true) ∧
    ((setcoverQuadMap U V).map Prod.fst).Pairwise
      (fun k1 k2 => ¬sameUnordered k1 k2) ∧
    ((combinedQuadMap d).map Prod.fst).Pairwise
      (fun k1 k2 => ¬sameUnordered k1 k2) := by
  refine ⟨setcoverQuad_keys_canon U V, combinedQuad_keys_canon d, ?_, ?_⟩
  · unfold setcoverQuadMap
    refine (assocSetAll_keys_nodup _).imp_of_mem ?_
    intro a b ha hb hne hsame
    exact hne (canon_unique
      (setcoverQuad_keys_canon U V a (assocSetAll_keys_sub _ a ha))
      (setcoverQuad_keys_canon U V b (assocSetAll_keys_sub _ b hb)) hsame)
  · unfold combinedQuadMap
    refine (assocSetAll_keys_nodup _).imp_of_mem ?_
    intro a b ha hb hne hsame
    exact hne (canon_unique
      (combinedQuad_keys_canon d a (assocSetAll_keys_sub _ a ha))
      (combinedQuad_keys_canon d b (assocSetAll_keys_sub _ b hb)) hsame)

/-- Witness for C6 at the demo instances: a concrete `x`–`x` key of the
set-cover builder and a concrete `z`–`x` key of the combined builder are
canonical. -/
theorem quad_keys_canonical_witness :
    canonKeyB (ZVar.x 1, ZVar.x 2) = true ∧
      canonKeyB (ZVar.z 0 1, ZVar.x 2) = true :=
  ⟨(quad_keys_canonical_and_unique scU3 scV3 cdemo).1 _ (by decide),
   (quad_keys_canonical_and_unique scU3 scV3 cdemo).2.1 _ (by decide)⟩

theorem setQuadCheckedAll_aux {ν : Type} :
    ∀ (l : List ((ZVar × ZVar) × ν)) (acc : List ((ZVar × ZVar) × ν)),
      (∀ k ∈ l.map Prod.fst, k.1 ≠ k.2) →
      l.foldlM (fun m e => setQuadChecked m e.1 e.2) acc =
        some (l.foldl (fun m e => assocSet m e.1 e.2) acc) := by
  intro l
  induction l with
  | nil => intro acc _; rfl
  | cons e t ih =>
    intro acc h
    rw [List.foldlM_cons, List.foldl_cons]
    have hne : e.1.1 ≠ e.1.2 := h e.1 (by simp)
    rw [setQuadChecked, if_neg hne]
    exact ih (assocSet acc e.1 e.2) fun k hk => h k (by simp [hk])

/-- C7: a quadratic write of a self-pair `(v, v)` fails (dimod raises
`ValueError` on a self-loop) rather than creating a diagonal entry; neither
builder ever attempts one — replaying all their quadratic writes through
the checked operation succeeds and produces exactly the finished maps — and
the self-interaction of a purchase variable is instead folded into its
linear bias, whose `piece²` term carries the squared cost. -/
theorem self_pair_rejected_and_folded {α : Type} [DecidableEq α]
    (U : List α) (V : List (List α)) (d : CombinedData) :
    (∀ (m : List ((ZVar × ZVar) × ℚ)) (v : ZVar) (c : ℚ),
        setQuadChecked m (v, v) c = none) ∧
    setQuadCheckedAll (setcoverQuadWrites U V) = some (setcoverQuadMap U V) ∧
    setQuadCheckedAll (combinedQuadWrites d) = some (combinedQuadMap d) ∧
    ∀ k s, k < d.u → s < d.n →
      (ZVar.z k s, zLinBias d k s) ∈ combinedLinWrites d ∧
      ∀ p : ℕ, zLinBias d k s p =
        d.lagrange * (d.W k s : ℚ) ^ 2 * (p : ℚ) ^ 2 +
          (d.C - (d.values k : ℚ)) * (p : ℚ) := by
  refine ⟨fun m v c => by simp [setQuadChecked], ?_, ?_, ?_⟩
  · exact setQuadCheckedAll_aux _ [] fun k hk =>
      canon_ne (setcoverQuad_keys_canon U V k hk)
  · exact setQuadCheckedAll_aux _ [] fun k hk =>
      canon_ne (combinedQuad_keys_canon d k hk)
  · intro k s hk hs
    constructor
    · exact List.mem_append_left _ (List.mem_append_left _
        (List.mem_append_left _ (List.mem_flatMap.mpr
          ⟨k, List.mem_range.mpr hk,
            List.mem_map.mpr ⟨s, List.mem_range.mpr hs, rfl⟩⟩)))
    · intro p
      rfl

/-- Witness for C7 at the demo data: the checked write rejects a concrete
self-pair, and the purchase variable `z 0,0` carries its squared-cost
linear bias. -/
theorem self_pair_rejected_witness :
    setQuadChecked ([] : List ((ZVar × ZVar) × ℚ))
        (ZVar.x 1, ZVar.x 1) 5 = none ∧
      (ZVar.z 0 0, zLinBias cdemo 0 0) ∈ combinedLinWrites cdemo ∧
      zLinBias cdemo 0 0 3 =
        cdemo.lagrange * ((cdemo.W 0 0 : ℚ)) ^ 2 * 9 +
          (cdemo.C - (cdemo.values 0 : ℚ)) * 3 := by
  have h := (self_pair_rejected_and_folded scU3 scV3 cdemo).2.2.2 0 0
    (by decide) (by decide)
  refine ⟨(self_pair_rejected_and_folded scU3 scV3 cdemo).1 [] _ 5, h.1, ?_⟩
  rw [h.2 3]
  norm_num

/-! ### Unavailable items and the H3 block (C9, C10) -/

theorem combinedLin_keys_nodup (d : CombinedData) :
    ((combinedLinWrites d).map Prod.fst).Nodup := by
  simp only [combinedLinWrites, List.map_append, List.map_flatMap,
    List.map_map, Function.comp_def]
  apply List.Nodup.append
  · apply List.Nodup.append
    · apply List.Nodup.append
      · apply nodup_flat _ _ (List.nodup_range _)
        · intro k _
          exact List.Nodup.map (fun p q h => by simpa using h)
            (List.nodup_range _)
        · intro k1 _ k2 _ v hv1 hv2
          simp only [List.mem_map] at hv1 hv2
          obtain ⟨s1, _, rfl⟩ := hv1
          obtain ⟨s2, _, hv⟩ := hv2
          simp only [ZVar.z.injEq] at hv
          exact hv.1.symm
      · exact List.Nodup.map (fun p q h => by simpa using h)
          (List.nodup_range _)
      · intro v hv1 hv2
        simp only [List.mem_flatMap, List.mem_map] at hv1 hv2
        obtain ⟨k, _, s, _, rfl⟩ := hv1
        obtain ⟨j, _, hv⟩ := hv2
        simp at hv
    · exact List.Nodup.map (fun p q h => by simpa using h)
        (List.nodup_range _)
    · intro v hv1 hv2
      simp only [List.mem_map] at hv2
      obtain ⟨i, _, rfl⟩ := hv2
      simp only [List.mem_append, List.mem_flatMap, List.mem_map] at hv1
      rcases hv1 with ⟨k, _, s, _, hv⟩ | ⟨j, _, hv⟩ <;> simp at hv
  · apply nodup_flat _ _ (pyRange_nodup _ _)
    · intro a _
      exact List.Nodup.map (fun p q h => by simpa using h) (pyRange_nodup _ _)
    · intro a1 _ a2 _ v hv1 hv2
      simp only [List.mem_map] at hv1 hv2
      obtain ⟨m1, _, rfl⟩ := hv1
      obtain ⟨m2, _, hv⟩ := hv2
      simp only [ZVar.y.injEq] at hv
      exact hv.1.symm
  · intro v hv1 hv2
    simp only [List.mem_flatMap, List.mem_map, mem_pyRange] at hv2
    obtain ⟨a, _, m, _, rfl⟩ := hv2
    simp only [List.mem_append, List.mem_flatMap, List.mem_map] at hv1
    rcases hv1 with (⟨k, _, s, _, hv⟩ | ⟨j, _, hv⟩) | ⟨i, _, hv⟩ <;>
      simp at hv

/-- C9: for an (item `k`, supplier `s`) pair marked unavailable in the cost
table (`W[k][s] = -1`), the combined builder still declares the purchase
variable `z k,s` with its full domain `{0, …, bound0 k}` (`bound0 k + 1`
cases), its linear bias in the finished model is computed with the sentinel
`-1` as the cost — `lagrange · (−1)² · p² + (C − value) · p`, i.e.
`lagrange · p² + (C − value) · p` — and every budget cross term `z`–`w` is
likewise written with the sentinel, giving `+2·lagrange·w_j·p` at slack
case 1.  Nothing excludes purchasing the unavailable item. -/
theorem unavailable_pairs_still_modeled (d : CombinedData) (k s : ℕ)
    (hk : k < d.u) (hs : s < d.n) (hwv : d.W k s = -1) :
    (ZVar.z k s, d.bound0 k + 1) ∈ combinedVars d ∧
    assocGet (combinedLinMap d) (ZVar.z k s) = some (zLinBias d k s) ∧
    (∀ p : ℕ, zLinBias d k s p =
      d.lagrange * (p : ℚ) ^ 2 + (d.C - (d.values k : ℚ)) * p) ∧
    ∀ j, j < numSlack d.Wcap →
      ((ZVar.z k s, ZVar.w j), zwBias d k s j) ∈ combinedQuadWrites d ∧
      ∀ p c : ℕ, zwBias d k s j p c =
        if c = 1 then 2 * d.lagrange * (wgt d j : ℚ) * p else 0 := by
  refine ⟨?_, ?_, ?_, ?_⟩
  · exact List.mem_append_left _ (List.mem_append_left _
      (List.mem_append_left _ (List.mem_flatMap.mpr
        ⟨k, List.mem_range.mpr hk,
          List.mem_map.mpr ⟨s, List.mem_range.mpr hs, rfl⟩⟩)))
  · rw [combinedLinMap, assocSetAll_eq_self (combinedLin_keys_nodup d)]
    refine (assocGet_eq_some_iff_mem (combinedLin_keys_nodup d) _ _).mpr ?_
    exact List.mem_append_left _ (List.mem_append_left _
      (List.mem_append_left _ (List.mem_flatMap.mpr
        ⟨k, List.mem_range.mpr hk,
          List.mem_map.mpr ⟨s, List.mem_range.mpr hs, rfl⟩⟩)))
  · intro p
    rw [zLinBias, hwv]
    push_cast
    ring
  · intro j hj
    constructor
    · refine List.mem_append_left _ (List.mem_append_left _
        (List.mem_append_left _ (List.mem_append_left _
          (List.mem_append_right _ (List.mem_flatMap.mpr
            ⟨k, List.mem_range.mpr hk, List.mem_flatMap.mpr
              ⟨s, List.mem_range.mpr hs, List.mem_map.mpr
                ⟨j, List.mem_range.mpr hj, rfl⟩⟩⟩)))))
    · intro p c
      rw [zwBias, hwv]
      by_cases hc : c = 1 <;> simp [hc]

/-- Witness for C9 at the demo data, where every cost is the `-1`
sentinel. -/
theorem unavailable_pairs_witness :
    (ZVar.z 0 0, cdemo.bound0 0 + 1) ∈ combinedVars cdemo ∧
      zLinBias cdemo 0 0 2 =
        cdemo.lagrange * 4 + (cdemo.C - (cdemo.values 0 : ℚ)) * 2 := by
  have h := unavailable_pairs_still_modeled cdemo 0 0 (by decide) (by decide)
    (by decide)
  refine ⟨h.1, ?_⟩
  rw [h.2.2.1 2]
  norm_num

theorem assocSet_sub {κ ν : Type} [DecidableEq κ]
    (m : List (κ × ν)) (k : κ) (c : ν) :
    ∀ e ∈ assocSet m k c, e ∈ m ∨ e = (k, c) := by
  induction m with
  | nil => simp [assocSet]
  | cons e0 rest ih =>
    intro e he
    rw [assocSet] at he
    split at he
    · rcases List.mem_cons.mp he with he | he
      · exact Or.inr he
      · exact Or.inl (List.mem_cons_of_mem _ he)
    · rcases List.mem_cons.mp he with he | he
      · exact Or.inl (he ▸ List.mem_cons_self _ _)
      · rcases ih e he with h | h
        · exact Or.inl (List.mem_cons_of_mem _ h)
        · exact Or.inr h

theorem assocSetAll_sub {κ ν : Type} [DecidableEq κ]
    (l : List (κ × ν)) : ∀ e ∈ assocSetAll l, e ∈ l := by
  suffices h : ∀ acc e,
      e ∈ l.foldl (fun m e => assocSet m e.1 e.2) acc → e ∈ acc ∨ e ∈ l by
    intro e he
    exact ((h [] e he).resolve_left (by simp))
  induction l with
  | nil =>
    intro acc e he
    exact Or.inl (by simpa using he)
  | cons e0 t ih =>
    intro acc e he
    rw [List.foldl_cons] at he
    rcases ih (assocSet acc e0.1 e0.2) e he with h | h
    · rcases assocSet_sub acc e0.1 e0.2 e h with h | h
      · exact Or.inl h
      · exact Or.inr (by simp [h])
    · exact Or.inr (List.mem_cons_of_mem _ h)

theorem energy_set_zero (k : ZVar × ZVar) (f : ℕ → ℕ → ℚ)
    (hf : ∀ p c, f p c = 0) (σ : ZVar → ℕ) :
    ∀ m : List ((ZVar × ZVar) × (ℕ → ℕ → ℚ)),
      (∀ e ∈ m, e.1 = k → ∀ p c, e.2 p c = 0) →
      ((assocSet m k f).map fun e => e.2 (σ e.1.1) (σ e.1.2)).sum =
        (m.map fun e => e.2 (σ e.1.1) (σ e.1.2)).sum := by
  intro m
  induction m with
  | nil => simp [assocSet, hf]
  | cons e0 rest ih =>
    intro hm
    rw [assocSet]
    split
    · rename_i hk
      simp only [List.map_cons, List.sum_cons]
      rw [hf, hm e0 (List.mem_cons_self _ _) hk]
    · simp only [List.map_cons, List.sum_cons]
      rw [ih fun e he hek => hm e (List.mem_cons_of_mem _ he) hek]

theorem energy_fold_zero (σ : ZVar → ℕ) :
    ∀ (extra m : List ((ZVar × ZVar) × (ℕ → ℕ → ℚ))),
      (∀ e ∈ extra, ∀ p c, e.2 p c = 0) →
      (∀ e ∈ m, zxShaped e.1 → ∀ p c, e.2 p c = 0) →
      (∀ e ∈ extra, zxShaped e.1) →
      ((extra.foldl (fun mm e => assocSet mm e.1 e.2) m).map
        fun e => e.2 (σ e.1.1) (σ e.1.2)).sum =
        (m.map fun e => e.2 (σ e.1.1) (σ e.1.2)).sum := by
  intro extra
  induction extra with
  | nil =>
    intro m _ _ _
    rfl
  | cons e0 t ih =>
    intro m hextra hm hshape
    rw [List.foldl_cons]
    rw [ih (assocSet m e0.1 e0.2)
      (fun e he => hextra e (List.mem_cons_of_mem _ he)) ?_
      (fun e he => hshape e (List.mem_cons_of_mem _ he))]
    · exact energy_set_zero e0.1 e0.2 (hextra e0 (List.mem_cons_self _ _)) σ
        m (fun e he hek _ _ => hm e he (hek ▸ hshape e0 (by simp)) _ _)
    · intro e he hzx
      rcases assocSet_sub m e0.1 e0.2 e he with h | h
      · exact hm e h hzx
      · intro p c
        rw [h]
        exact hextra e0 (List.mem_cons_self _ _) p c

theorem combinedBase_not_zx (d : CombinedData) :
    ∀ e ∈ combinedQuadBase d, ¬zxShaped e.1 := by
  intro e he hzx
  obtain ⟨i', s', j', hkey⟩ := hzx
  simp only [combinedQuadBase, List.mem_append, List.mem_flatMap,
    List.mem_map, mem_pyRange, List.mem_range] at he
  rcases he with
    ((((⟨i, _, j, _, s1, _, s2, _, rfl⟩ | ⟨i, _, j, _, rfl⟩) |
      ⟨i, _, s, _, j, _, rfl⟩) | ⟨i, _, j, _, rfl⟩) |
      ⟨m, _, nn, _, a, _, rfl⟩) | ⟨i, _, m, _, a, _, rfl⟩ <;>
    simp at hkey

/-- C10: with the notebook's configured `C = 0`, the H3
consistency-linking loop writes `x`–`z` terms only for supplier indices
`s ≥ 1` (never supplier 0), every bias it writes is `-C·piece = 0`, the
compiled combined model carries no nonzero coupling on any `z`–`x` pair,
and its energy function is identical to that of the model built with the
H3 block omitted. -/
theorem h3_block_inert (d : CombinedData) (hC : d.C = 0) :
    (∀ k ∈ (combinedH3Writes d).map Prod.fst,
      ∃ i s, i < d.u ∧ 1 ≤ s ∧ s < d.n ∧ k = (ZVar.z i s, ZVar.x (s + 1))) ∧
    (∀ e ∈ combinedH3Writes d, e.2 = h3Bias d.C) ∧
    (∀ p c : ℕ, h3Bias d.C p c = 0) ∧
    (∀ e ∈ combinedQuadMap d, zxShaped e.1 → ∀ p c : ℕ, e.2 p c = 0) ∧
    ∀ σ : ZVar → ℕ, combinedEnergy d σ = combinedEnergyNoH3 d σ := by
  have hzero : ∀ p c : ℕ, h3Bias d.C p c = 0 := by
    intro p c
    simp [h3Bias, hC]
  have hh3 : ∀ e ∈ combinedH3Writes d,
      zxShaped e.1 ∧ e.2 = h3Bias d.C := by
    intro e he
    simp only [combinedH3Writes, List.mem_flatMap, List.mem_map,
      mem_pyRange, List.mem_range] at he
    obtain ⟨i, _, s, _, j, _, rfl⟩ := he
    exact ⟨⟨i, s, s + 1, rfl⟩, rfl⟩
  refine ⟨?_, fun e he => (hh3 e he).2, hzero, ?_, ?_⟩
  · intro k hk
    simp only [combinedH3Writes, List.map_flatMap, List.map_map,
      Function.comp_def, List.mem_flatMap, List.mem_map, mem_pyRange,
      List.mem_range] at hk
    obtain ⟨i, hi, s, hs, j, _, rfl⟩ := hk
    exact ⟨i, s, hi, hs.1, hs.2, rfl⟩
  · intro e he hzx
    have hsub := assocSetAll_sub (combinedQuadWrites d) e he
    rcases List.mem_append.mp hsub with h | h
    · exact absurd hzx (combinedBase_not_zx d e h)
    · intro p c
      rw [(hh3 e h).2]
      exact hzero p c
  · intro σ
    unfold combinedEnergy combinedEnergyNoH3 energyD
    congr 1
    unfold combinedQuadMap combinedQuadMapNoH3 combinedQuadWrites assocSetAll
    rw [List.foldl_append]
    exact energy_fold_zero σ (combinedH3Writes d) _
      (fun e he => (hh3 e he).2 ▸ hzero)
      (fun e he hzx => absurd hzx
        (combinedBase_not_zx d e (assocSetAll_sub _ e he)))
      (fun e he => (hh3 e he).1)

/-- Witness for C10 at the demo data (`C = 0`): the single H3 key has the
claimed shape with `s = 1`, its bias vanishes, and the energies with and
without the H3 block agree at the all-ones assignment. -/
theorem h3_block_inert_witness :
    (∃ i s, i < cdemo.u ∧ 1 ≤ s ∧ s < cdemo.n ∧
      ((ZVar.z 0 1, ZVar.x 2) : ZVar × ZVar) = (ZVar.z i s, ZVar.x (s + 1))) ∧
    h3Bias cdemo.C 5 1 = 0 ∧
    combinedEnergy cdemo (fun _ => 1) = combinedEnergyNoH3 cdemo (fun _ => 1) := by
  have h := h3_block_inert cdemo (by decide)
  exact ⟨h.1 _ (by decide), h.2.2.1 5 1, h.2.2.2.2 _⟩
